import Mathlib

/-!
Verification of the interval-arithmetic branch-and-bound area estimator
(`absint.py`).  The program is shallowly embedded over exact rationals:
every floating-point operation of the source carries the conservative
rounding-error inflation `account_for_rounding_errors`, whose inflation
factor (the source's `sys.float_info.epsilon`) is the parameter `eps` of
the embedded definitions; the source instantiates it at `machineEps`.
-/

open MeasureTheory

namespace Absint

/-- Machine epsilon of IEEE-754 double precision, the source's
`sys.float_info.epsilon`. -/
def machineEps : ℚ := 1 / 2 ^ 52

/-- Closed interval `[min, max]`; mirrors `class Interval` of `absint.py`. -/
structure Interval where
  min : ℚ
  max : ℚ
deriving DecidableEq

/-- `Interval.__init__` asserts `min <= max`; modelled as a fallible
constructor which fails exactly when the assertion would fire. -/
def Interval.make (mn mx : ℚ) : Option Interval :=
  if mn ≤ mx then some ⟨mn, mx⟩ else none

/-- The constructor invariant of `Interval`. -/
def Interval.WF (i : Interval) : Prop := i.min ≤ i.max

instance (i : Interval) : Decidable i.WF :=
  inferInstanceAs (Decidable (i.min ≤ i.max))

/-- `Interval.singleton`. -/
def Interval.singleton (x : ℚ) : Interval := ⟨x, x⟩

/-- `Interval.wrap`. -/
def Interval.wrap (i j : Interval) : Interval :=
  ⟨Min.min i.min j.min, Max.max i.max j.max⟩

/-- `Interval.account_for_rounding_errors`; `eps` abstracts
`sys.float_info.epsilon`. -/
def Interval.account_for_rounding_errors (eps : ℚ) (i : Interval) : Interval :=
  ⟨i.min - |i.min| * eps, i.max + |i.max| * eps⟩

/-- `Interval.__add__`. -/
def Interval.add (eps : ℚ) (a b : Interval) : Interval :=
  (Interval.mk (a.min + b.min) (a.max + b.max)).account_for_rounding_errors eps

/-- `Interval.__sub__`. -/
def Interval.sub (eps : ℚ) (a b : Interval) : Interval :=
  (Interval.mk (a.min - b.max) (a.max - b.min)).account_for_rounding_errors eps

/-- `Interval.__mul__`: min/max over the four endpoint products,
in the order the source's comprehension generates them. -/
def Interval.mul (eps : ℚ) (a b : Interval) : Interval :=
  (Interval.mk
      (Min.min (Min.min (a.min * b.min) (a.min * b.max))
        (Min.min (a.max * b.min) (a.max * b.max)))
      (Max.max (Max.max (a.min * b.min) (a.min * b.max))
        (Max.max (a.max * b.min) (a.max * b.max)))
    ).account_for_rounding_errors eps

/-- `Interval.can_be_nonnegative`. -/
def Interval.can_be_nonnegative (i : Interval) : Bool := decide (0 ≤ i.max)

/-- `Interval.can_be_negative`. -/
def Interval.can_be_negative (i : Interval) : Bool := decide (i.min < 0)

/-- `Interval.length`. -/
def Interval.length (eps : ℚ) (i : Interval) : Interval :=
  (Interval.singleton (i.max - i.min)).account_for_rounding_errors eps

/-- `Interval.round`: the midpoint, a plain scalar. -/
def Interval.round (i : Interval) : ℚ := (i.min + i.max) / 2

/-- `Interval.split`: bisection at the midpoint. -/
def Interval.split (i : Interval) : Interval × Interval :=
  (⟨i.min, (i.min + i.max) / 2⟩, ⟨(i.min + i.max) / 2, i.max⟩)

/-- Scalar membership in an interval. -/
def Interval.contains (i : Interval) (x : ℚ) : Prop := i.min ≤ x ∧ x ≤ i.max

instance (i : Interval) (x : ℚ) : Decidable (i.contains x) :=
  inferInstanceAs (Decidable (_ ∧ _))

/-- The set of real numbers an interval denotes. -/
def Interval.setR (i : Interval) : Set ℝ := Set.Icc (i.min : ℝ) (i.max : ℝ)

/-- The open interior of the denoted real set. -/
def Interval.interiorSetR (i : Interval) : Set ℝ := Set.Ioo (i.min : ℝ) (i.max : ℝ)

/-- Mirrors `class Box2D` of `absint.py`. -/
structure Box2D where
  x : Interval
  y : Interval
deriving DecidableEq

/-- Well-formedness of a box: both axis intervals well-formed. -/
def Box2D.WF (b : Box2D) : Prop := b.x.WF ∧ b.y.WF

instance (b : Box2D) : Decidable b.WF := inferInstanceAs (Decidable (_ ∧ _))

/-- `Box2D.area`: the interval product of the two axis lengths. -/
def Box2D.area (eps : ℚ) (b : Box2D) : Interval :=
  (b.x.length eps).mul eps (b.y.length eps)

/-- `Box2D.split`: the four quarters, in the source's tuple order. -/
def Box2D.split (b : Box2D) : List Box2D :=
  [⟨b.x.split.1, b.y.split.1⟩, ⟨b.x.split.1, b.y.split.2⟩,
   ⟨b.x.split.2, b.y.split.1⟩, ⟨b.x.split.2, b.y.split.2⟩]

/-- The set of real points a box denotes. -/
def Box2D.setR (b : Box2D) : Set (ℝ × ℝ) := b.x.setR ×ˢ b.y.setR

/-- The open interior of the denoted rectangle. -/
def Box2D.interiorR (b : Box2D) : Set (ℝ × ℝ) := b.x.interiorSetR ×ˢ b.y.interiorSetR

/-- The exact (infinite-precision) area of a box, used in statements. -/
def exactArea (b : Box2D) : ℚ := (b.x.max - b.x.min) * (b.y.max - b.y.min)

/-- The mutable locals of `probability_nonnegative`: the resolved
non-negative boxes and the worklist of prioritized items. -/
structure SearchState where
  nonneg : List Box2D
  worklist : List (ℚ × Box2D)
deriving DecidableEq

/-- All boxes currently owned by the search state. -/
def SearchState.boxes (st : SearchState) : List Box2D :=
  st.nonneg ++ st.worklist.map Prod.snd

/-- `PriorityQueue.get`: removes an item of least priority (the first such
item; ties among equal priorities are implementation-defined in the
source's heap, and the embedding fixes one legal choice). -/
def popMin : List (ℚ × Box2D) → Option ((ℚ × Box2D) × List (ℚ × Box2D))
  | [] => none
  | p :: ps =>
    match popMin ps with
    | none => some (p, ps)
    | some (q, qs) => if p.1 ≤ q.1 then some (p, ps) else some (q, p :: qs)

/-- One iteration of the loop body of `probability_nonnegative` (the
identity when the worklist is empty, matching the loop's early `break`). -/
def step (eps : ℚ) (f : Box2D → Interval) (st : SearchState) : SearchState :=
  match popMin st.worklist with
  | none => st
  | some (pr, rest) =>
    let box := pr.2
    let f_on_box := f box
    { nonneg := if f_on_box.can_be_negative then st.nonneg else st.nonneg ++ [box],
      worklist :=
        if f_on_box.can_be_negative && f_on_box.can_be_nonnegative then
          rest ++ box.split.map (fun q => (-(q.area eps).round, q))
        else rest }

/-- The loop of `probability_nonnegative`, run for the given budget. -/
def runState (eps : ℚ) (f : Box2D → Interval) : Nat → SearchState → SearchState
  | 0, st => st
  | n + 1, st => runState eps f n (step eps f st)

/-- `sum(..., start=Interval.singleton(0))`: a left fold of interval
addition from the zero singleton. -/
def sumIntervals (eps : ℚ) (l : List Interval) : Interval :=
  l.foldl (Interval.add eps) (Interval.singleton 0)

/-- The state before the loop: an empty resolved list and a worklist
holding only the domain, keyed by its negated area midpoint. -/
def initState (eps : ℚ) (domain : Box2D) : SearchState :=
  ⟨[], [(-(domain.area eps).round, domain)]⟩

/-- The search state when the loop of `probability_nonnegative` exits. -/
def finalState (eps : ℚ) (f : Box2D → Interval) (domain : Box2D)
    (iterations : Nat) : SearchState :=
  runState eps f iterations (initState eps domain)

/-- The `lower_bound` local of `probability_nonnegative`. -/
def lower_bound_of (eps : ℚ) (f : Box2D → Interval) (domain : Box2D)
    (iterations : Nat) : Interval :=
  sumIntervals eps ((finalState eps f domain iterations).nonneg.map (Box2D.area eps))

/-- The `upper_bound` local of `probability_nonnegative`. -/
def upper_bound_of (eps : ℚ) (f : Box2D → Interval) (domain : Box2D)
    (iterations : Nat) : Interval :=
  (lower_bound_of eps f domain iterations).add eps
    (sumIntervals eps
      ((finalState eps f domain iterations).worklist.map (fun it => it.2.area eps)))

/-- `probability_nonnegative` of `absint.py`. -/
def probability_nonnegative (eps : ℚ) (f : Box2D → Interval) (domain : Box2D)
    (iterations : Nat) : Interval :=
  Interval.wrap (lower_bound_of eps f domain iterations)
    (upper_bound_of eps f domain iterations)

/-- Union of a list of point sets. -/
def listUnion : List (Set (ℝ × ℝ)) → Set (ℝ × ℝ)
  | [] => ∅
  | s :: ts => s ∪ listUnion ts

/-- `f` is a rigorous interval extension of the pointwise function `g`. -/
def IsExtension (g : ℝ × ℝ → ℝ) (f : Box2D → Interval) : Prop :=
  ∀ b : Box2D, b.WF → ∀ p ∈ b.setR, ((f b).min : ℝ) ≤ g p ∧ g p ≤ ((f b).max : ℝ)

/-- The loop invariant of `probability_nonnegative` (the source's comment
above the loop), with disjointness stated of box interiors. -/
structure Inv (g : ℝ × ℝ → ℝ) (domain : Box2D) (st : SearchState) : Prop where
  inDomain : ∀ b ∈ st.boxes, b.setR ⊆ domain.setR
  cover : ∀ p : ℝ × ℝ, p ∈ domain.setR → 0 ≤ g p → ∃ b ∈ st.boxes, p ∈ b.setR
  resolved : ∀ b ∈ st.nonneg, ∀ p ∈ b.setR, 0 ≤ g p
  disj : st.boxes.Pairwise fun b1 b2 => Disjoint b1.interiorR b2.interiorR

/-- All boxes owned by the state are well-formed. -/
def WFState (st : SearchState) : Prop := ∀ b ∈ st.boxes, b.WF

/-- A zero-area (single-point) box. -/
def IsPoint (b : Box2D) : Prop := b.x.min = b.x.max ∧ b.y.min = b.y.max

/-- Exact total area of the resolved non-negative boxes. -/
def Lq (st : SearchState) : ℚ := (st.nonneg.map exactArea).sum

/-- Exact total area of the boxes still in the worklist. -/
def Rq (st : SearchState) : ℚ := ((st.worklist.map Prod.snd).map exactArea).sum

/-- An interval with a non-negative lower endpoint. -/
def GoodI (i : Interval) : Prop := 0 ≤ i.min ∧ i.min ≤ i.max

/-- The unit square domain. -/
def unitBox : Box2D := ⟨⟨0, 1⟩, ⟨0, 1⟩⟩

/-- A 2-by-2 domain of area 4. -/
def domTwo : Box2D := ⟨⟨0, 2⟩, ⟨0, 2⟩⟩

/-- An everywhere-ambiguous interval extension (straddles zero). -/
def fAmb : Box2D → Interval := fun _ => ⟨-1, 1⟩

/-- An everywhere provably-negative interval extension. -/
def fNeg : Box2D → Interval := fun _ => ⟨-2, -1⟩

/-- The constant-one interval extension. -/
def fOne : Box2D → Interval := fun _ => ⟨1, 1⟩

/-- The constant-zero interval extension. -/
def fZero : Box2D → Interval := fun _ => ⟨0, 0⟩

/-- The constant real function one. -/
def gOne : ℝ × ℝ → ℝ := fun _ => 1

/-- The constant real function zero. -/
def gZero : ℝ × ℝ → ℝ := fun _ => 0

end Absint

namespace Absint

theorem eps_pos : (0:ℚ) ≤ machineEps := by norm_num [machineEps]

theorem eps_le_one : machineEps ≤ 1 := by norm_num [machineEps]

theorem interval_eq (i j : Interval) (h1 : i.min = j.min) (h2 : i.max = j.max) : i = j := by
  cases i; cases j; simp_all

theorem account_contains (eps : ℚ) (h : 0 ≤ eps) (i : Interval) (x : ℚ)
    (hx : i.contains x) : (i.account_for_rounding_errors eps).contains x := by
  obtain ⟨h1, h2⟩ := hx
  have a1 : 0 ≤ |i.min| * eps := mul_nonneg (abs_nonneg _) h
  have a2 : 0 ≤ |i.max| * eps := mul_nonneg (abs_nonneg _) h
  exact ⟨by simp only [Interval.account_for_rounding_errors]; linarith,
         by simp only [Interval.account_for_rounding_errors]; linarith⟩

theorem account_wf (eps : ℚ) (h : 0 ≤ eps) (i : Interval) (hi : i.WF) :
    (i.account_for_rounding_errors eps).WF := by
  have a1 : 0 ≤ |i.min| * eps := mul_nonneg (abs_nonneg _) h
  have a2 : 0 ≤ |i.max| * eps := mul_nonneg (abs_nonneg _) h
  simp only [Interval.WF, Interval.account_for_rounding_errors] at hi ⊢
  linarith

theorem add_contains (eps : ℚ) (h : 0 ≤ eps) (a b : Interval) (x y : ℚ)
    (hx : a.contains x) (hy : b.contains y) : (a.add eps b).contains (x + y) := by
  refine account_contains eps h _ _ ⟨?_, ?_⟩
  · exact add_le_add hx.1 hy.1
  · exact add_le_add hx.2 hy.2

theorem sub_contains (eps : ℚ) (h : 0 ≤ eps) (a b : Interval) (x y : ℚ)
    (hx : a.contains x) (hy : b.contains y) : (a.sub eps b).contains (x - y) := by
  refine account_contains eps h _ _ ⟨?_, ?_⟩
  · exact sub_le_sub hx.1 hy.2
  · exact sub_le_sub hx.2 hy.1

theorem four_min_le (am aM bm bM a b : ℚ) (ha1 : am ≤ a) (ha2 : a ≤ aM)
    (hb1 : bm ≤ b) (hb2 : b ≤ bM) :
    Min.min (Min.min (am * bm) (am * bM)) (Min.min (aM * bm) (aM * bM)) ≤ a * b := by
  have key : Min.min (a * bm) (a * bM) ≤ a * b := by
    rcases le_total 0 a with h | h
    · exact le_trans (min_le_left _ _) (mul_le_mul_of_nonneg_left hb1 h)
    · exact le_trans (min_le_right _ _) (mul_le_mul_of_nonpos_left hb2 h)
  have hbm : Min.min (Min.min (am * bm) (am * bM)) (Min.min (aM * bm) (aM * bM)) ≤ a * bm := by
    rcases le_total 0 bm with h | h
    · exact le_trans (le_trans (min_le_left _ _) (min_le_left _ _))
        (mul_le_mul_of_nonneg_right ha1 h)
    · exact le_trans (le_trans (min_le_right _ _) (min_le_left _ _))
        (mul_le_mul_of_nonpos_right ha2 h)
  have hbM : Min.min (Min.min (am * bm) (am * bM)) (Min.min (aM * bm) (aM * bM)) ≤ a * bM := by
    rcases le_total 0 bM with h | h
    · exact le_trans (le_trans (min_le_left _ _) (min_le_right _ _))
        (mul_le_mul_of_nonneg_right ha1 h)
    · exact le_trans (le_trans (min_le_right _ _) (min_le_right _ _))
        (mul_le_mul_of_nonpos_right ha2 h)
  exact le_trans (le_min hbm hbM) key

theorem four_le_max (am aM bm bM a b : ℚ) (ha1 : am ≤ a) (ha2 : a ≤ aM)
    (hb1 : bm ≤ b) (hb2 : b ≤ bM) :
    a * b ≤ Max.max (Max.max (am * bm) (am * bM)) (Max.max (aM * bm) (aM * bM)) := by
  have key : a * b ≤ Max.max (a * bm) (a * bM) := by
    rcases le_total 0 a with h | h
    · exact le_trans (mul_le_mul_of_nonneg_left hb2 h) (le_max_right _ _)
    · exact le_trans (mul_le_mul_of_nonpos_left hb1 h) (le_max_left _ _)
  have hbm : a * bm ≤ Max.max (Max.max (am * bm) (am * bM)) (Max.max (aM * bm) (aM * bM)) := by
    rcases le_total 0 bm with h | h
    · exact le_trans (mul_le_mul_of_nonneg_right ha2 h)
        (le_trans (le_max_left _ _) (le_max_right _ _))
    · exact le_trans (mul_le_mul_of_nonpos_right ha1 h)
        (le_trans (le_max_left _ _) (le_max_left _ _))
  have hbM : a * bM ≤ Max.max (Max.max (am * bm) (am * bM)) (Max.max (aM * bm) (aM * bM)) := by
    rcases le_total 0 bM with h | h
    · exact le_trans (mul_le_mul_of_nonneg_right ha2 h)
        (le_trans (le_max_right _ _) (le_max_right _ _))
    · exact le_trans (mul_le_mul_of_nonpos_right ha1 h)
        (le_trans (le_max_right _ _) (le_max_left _ _))
  exact le_trans key (max_le hbm hbM)

theorem mul_contains (eps : ℚ) (h : 0 ≤ eps) (a b : Interval) (x y : ℚ)
    (hx : a.contains x) (hy : b.contains y) : (a.mul eps b).contains (x * y) := by
  refine account_contains eps h _ _ ⟨?_, ?_⟩
  · exact four_min_le a.min a.max b.min b.max x y hx.1 hx.2 hy.1 hy.2
  · exact four_le_max a.min a.max b.min b.max x y hx.1 hx.2 hy.1 hy.2

theorem length_contains (eps : ℚ) (h : 0 ≤ eps) (i : Interval) :
    (i.length eps).contains (i.max - i.min) :=
  account_contains eps h _ _ ⟨le_refl _, le_refl _⟩

theorem area_contains (eps : ℚ) (h : 0 ≤ eps) (b : Box2D) :
    (b.area eps).contains (exactArea b) :=
  mul_contains eps h _ _ _ _ (length_contains eps h b.x) (length_contains eps h b.y)

theorem singleton_contains (x : ℚ) : (Interval.singleton x).contains x :=
  ⟨le_refl _, le_refl _⟩

theorem wrap_min_le_left (i j : Interval) : (Interval.wrap i j).min ≤ i.min := min_le_left _ _

theorem le_wrap_max_right (i j : Interval) : j.max ≤ (Interval.wrap i j).max := le_max_right _ _

end Absint

namespace Absint

theorem length_eval (eps : ℚ) (i : Interval) (h : i.min ≤ i.max) :
    i.length eps = ⟨(i.max - i.min) * (1 - eps), (i.max - i.min) * (1 + eps)⟩ := by
  apply interval_eq <;>
    simp [Interval.length, Interval.singleton, Interval.account_for_rounding_errors,
      abs_of_nonneg (sub_nonneg.mpr h)] <;> ring

theorem mul_eval_nonneg (eps am aM bm bM : ℚ) (ha0 : 0 ≤ am) (haWF : am ≤ aM)
    (hb0 : 0 ≤ bm) (hbWF : bm ≤ bM) :
    (Interval.mk am aM).mul eps (Interval.mk bm bM)
      = ⟨am * bm * (1 - eps), aM * bM * (1 + eps)⟩ := by
  have h1 : am * bm ≤ am * bM := mul_le_mul_of_nonneg_left hbWF ha0
  have h2 : am * bm ≤ aM * bm := mul_le_mul_of_nonneg_right haWF hb0
  have h3 : am * bM ≤ aM * bM := mul_le_mul_of_nonneg_right haWF (le_trans hb0 hbWF)
  have h4 : aM * bm ≤ aM * bM := mul_le_mul_of_nonneg_left hbWF (le_trans ha0 haWF)
  have hmin : Min.min (Min.min (am * bm) (am * bM)) (Min.min (aM * bm) (aM * bM))
      = am * bm := by
    rw [min_eq_left h1, min_eq_left h4, min_eq_left h2]
  have hmax : Max.max (Max.max (am * bm) (am * bM)) (Max.max (aM * bm) (aM * bM))
      = aM * bM := by
    rw [max_eq_right h1, max_eq_right h4, max_eq_right h3]
  apply interval_eq <;>
    simp only [Interval.mul, Interval.account_for_rounding_errors, hmin, hmax,
      abs_of_nonneg (mul_nonneg ha0 hb0),
      abs_of_nonneg (mul_nonneg (le_trans ha0 haWF) (le_trans hb0 hbWF))] <;> ring

theorem add_eval_nonneg (eps am aM bm bM : ℚ) (ha0 : 0 ≤ am) (haWF : am ≤ aM)
    (hb0 : 0 ≤ bm) (hbWF : bm ≤ bM) :
    (Interval.mk am aM).add eps (Interval.mk bm bM)
      = ⟨(am + bm) * (1 - eps), (aM + bM) * (1 + eps)⟩ := by
  apply interval_eq <;>
    simp only [Interval.add, Interval.account_for_rounding_errors,
      abs_of_nonneg (add_nonneg ha0 hb0),
      abs_of_nonneg (add_nonneg (le_trans ha0 haWF) (le_trans hb0 hbWF))] <;> ring

theorem area_eval (eps : ℚ) (h0 : 0 ≤ eps) (h1 : eps ≤ 1) (b : Box2D) (hb : b.WF) :
    b.area eps = ⟨exactArea b * (1 - eps) ^ 3, exactArea b * (1 + eps) ^ 3⟩ := by
  have hdx : (0:ℚ) ≤ b.x.max - b.x.min := sub_nonneg.mpr hb.1
  have hdy : (0:ℚ) ≤ b.y.max - b.y.min := sub_nonneg.mpr hb.2
  have he : (0:ℚ) ≤ 1 - eps := by linarith
  have hx2 : (b.x.max - b.x.min) * (1 - eps) ≤ (b.x.max - b.x.min) * (1 + eps) := by
    have h := mul_nonneg hdx h0
    nlinarith
  have hy2 : (b.y.max - b.y.min) * (1 - eps) ≤ (b.y.max - b.y.min) * (1 + eps) := by
    have h := mul_nonneg hdy h0
    nlinarith
  rw [Box2D.area, length_eval eps _ hb.1, length_eval eps _ hb.2,
    mul_eval_nonneg eps _ _ _ _ (mul_nonneg hdx he) hx2 (mul_nonneg hdy he) hy2]
  apply interval_eq <;> simp only [exactArea] <;> ring

theorem foldl_add_contains (eps : ℚ) (h0 : 0 ≤ eps) (l : List Box2D) :
    ∀ (acc : Interval) (x : ℚ), acc.contains x →
      (l.foldl (fun a c => a.add eps (c.area eps)) acc).contains
        (x + (l.map exactArea).sum) := by
  induction l with
  | nil => intro acc x hx; simpa using hx
  | cons b tl ih =>
    intro acc x hx
    have h := ih (acc.add eps (b.area eps)) (x + exactArea b)
      (add_contains eps h0 _ _ _ _ hx (area_contains eps h0 b))
    simp only [List.foldl_cons, List.map_cons, List.sum_cons]
    have e : x + (exactArea b + (tl.map exactArea).sum)
        = x + exactArea b + (tl.map exactArea).sum := by ring
    rw [e]
    exact h

theorem sum_area_contains (eps : ℚ) (h0 : 0 ≤ eps) (l : List Box2D) :
    (sumIntervals eps (l.map (Box2D.area eps))).contains ((l.map exactArea).sum) := by
  have h := foldl_add_contains eps h0 l (Interval.singleton 0) 0 (singleton_contains 0)
  simpa [sumIntervals, List.foldl_map] using h

theorem sum_exactArea_nonneg (l : List Box2D) (h : ∀ b ∈ l, b.WF) :
    0 ≤ (l.map exactArea).sum := by
  apply List.sum_nonneg
  intro q hq
  obtain ⟨b, hb, rfl⟩ := List.mem_map.mp hq
  exact mul_nonneg (sub_nonneg.mpr (h b hb).1) (sub_nonneg.mpr (h b hb).2)

theorem popMin_perm : ∀ {l : List (ℚ × Box2D)} {p rest},
    popMin l = some (p, rest) → l.Perm (p :: rest) := by
  intro l
  induction l with
  | nil => intro p rest h; simp [popMin] at h
  | cons x xs ih =>
    intro p rest h
    rw [popMin] at h
    cases hxs : popMin xs with
    | none =>
      rw [hxs] at h
      dsimp only at h
      simp only [Option.some.injEq, Prod.mk.injEq] at h
      obtain ⟨rfl, rfl⟩ := h
      exact List.Perm.refl _
    | some q_qs =>
      obtain ⟨q, qs⟩ := q_qs
      rw [hxs] at h
      dsimp only at h
      by_cases hle : x.1 ≤ q.1
      · rw [if_pos hle] at h
        simp only [Option.some.injEq, Prod.mk.injEq] at h
        obtain ⟨rfl, rfl⟩ := h
        exact List.Perm.refl _
      · rw [if_neg hle] at h
        simp only [Option.some.injEq, Prod.mk.injEq] at h
        obtain ⟨rfl, rfl⟩ := h
        exact ((ih hxs).cons x).trans (List.Perm.swap q x qs)

theorem popMin_none {l : List (ℚ × Box2D)} : popMin l = none ↔ l = [] := by
  cases l with
  | nil => simp [popMin]
  | cons x xs =>
    simp only [popMin]
    cases popMin xs with
    | none => simp
    | some q => obtain ⟨q1, q2⟩ := q; by_cases h : x.1 ≤ q1.1 <;> simp [h]

theorem step_empty (eps : ℚ) (f : Box2D → Interval) (st : SearchState)
    (h : st.worklist = []) : step eps f st = st := by
  rw [step, h]
  rfl

theorem runState_empty (eps : ℚ) (f : Box2D → Interval) (n : Nat) (st : SearchState)
    (h : st.worklist = []) : runState eps f n st = st := by
  induction n with
  | zero => rfl
  | succ k ih => rw [runState, step_empty eps f st h, ih]

theorem runState_add (eps : ℚ) (f : Box2D → Interval) (n k : Nat) (st : SearchState) :
    runState eps f (n + k) st = runState eps f k (runState eps f n st) := by
  induction n generalizing st with
  | zero => simp [runState]
  | succ m ih =>
    have e : m + 1 + k = m + k + 1 := by omega
    rw [e, runState, runState, ih]

theorem step_eq (eps : ℚ) (f : Box2D → Interval) (st : SearchState) (pr : ℚ × Box2D)
    (rest : List (ℚ × Box2D)) (h : popMin st.worklist = some (pr, rest)) :
    step eps f st =
      { nonneg := if (f pr.2).can_be_negative then st.nonneg else st.nonneg ++ [pr.2],
        worklist :=
          if (f pr.2).can_be_negative && (f pr.2).can_be_nonnegative then
            rest ++ pr.2.split.map (fun q => (-(q.area eps).round, q))
          else rest } := by
  rw [step, h]

end Absint

namespace Absint

theorem mem_setR {b : Box2D} {p : ℝ × ℝ} :
    p ∈ b.setR ↔ (((b.x.min : ℝ) ≤ p.1 ∧ p.1 ≤ (b.x.max : ℝ)) ∧
      ((b.y.min : ℝ) ≤ p.2 ∧ p.2 ≤ (b.y.max : ℝ))) := by
  simp only [Box2D.setR, Interval.setR, Set.mem_prod, Set.mem_Icc]

theorem mem_interiorR {b : Box2D} {p : ℝ × ℝ} :
    p ∈ b.interiorR ↔ (((b.x.min : ℝ) < p.1 ∧ p.1 < (b.x.max : ℝ)) ∧
      ((b.y.min : ℝ) < p.2 ∧ p.2 < (b.y.max : ℝ))) := by
  simp only [Box2D.interiorR, Interval.interiorSetR, Set.mem_prod, Set.mem_Ioo]

theorem interiorR_subset_setR (b : Box2D) : b.interiorR ⊆ b.setR := by
  intro p hp
  rw [mem_interiorR] at hp
  rw [mem_setR]
  exact ⟨⟨le_of_lt hp.1.1, le_of_lt hp.1.2⟩, ⟨le_of_lt hp.2.1, le_of_lt hp.2.2⟩⟩

theorem split_wf (b : Box2D) (hb : b.WF) : ∀ q ∈ b.split, q.WF := by
  intro q hq
  obtain ⟨h1, h2⟩ := hb
  rw [Interval.WF] at h1 h2
  simp only [Box2D.split, List.mem_cons, List.mem_singleton, List.not_mem_nil, or_false] at hq
  rcases hq with rfl | rfl | rfl | rfl <;>
    exact ⟨by simp only [Interval.WF, Interval.split]; linarith,
           by simp only [Interval.WF, Interval.split]; linarith⟩

theorem split_sub (b : Box2D) (hb : b.WF) : ∀ q ∈ b.split, q.setR ⊆ b.setR := by
  intro q hq p hp
  obtain ⟨h1, h2⟩ := hb
  rw [Interval.WF] at h1 h2
  have hx : (b.x.min : ℝ) ≤ (b.x.max : ℝ) := by exact_mod_cast h1
  have hy : (b.y.min : ℝ) ≤ (b.y.max : ℝ) := by exact_mod_cast h2
  simp only [Box2D.split, List.mem_cons, List.mem_singleton, List.not_mem_nil, or_false] at hq
  rcases hq with rfl | rfl | rfl | rfl <;>
    · rw [mem_setR] at hp
      rw [mem_setR]
      simp only [Interval.split] at hp
      push_cast at hp
      constructor <;> constructor <;> linarith [hp.1.1, hp.1.2, hp.2.1, hp.2.2]

theorem split_cover (b : Box2D) (p : ℝ × ℝ) (hp : p ∈ b.setR) :
    ∃ q ∈ b.split, p ∈ q.setR := by
  rw [mem_setR] at hp
  have e1 : ((b.x.split.1.max : ℚ) : ℝ) = ((b.x.min : ℝ) + (b.x.max : ℝ)) / 2 := by
    simp only [Interval.split]
    push_cast
    ring
  rcases le_total p.1 (((b.x.min : ℝ) + (b.x.max : ℝ)) / 2) with hx | hx <;>
    rcases le_total p.2 (((b.y.min : ℝ) + (b.y.max : ℝ)) / 2) with hy | hy
  · refine ⟨⟨b.x.split.1, b.y.split.1⟩, by simp [Box2D.split], ?_⟩
    rw [mem_setR]
    simp only [Interval.split]
    push_cast
    exact ⟨⟨hp.1.1, by linarith⟩, ⟨hp.2.1, by linarith⟩⟩
  · refine ⟨⟨b.x.split.1, b.y.split.2⟩, by simp [Box2D.split], ?_⟩
    rw [mem_setR]
    simp only [Interval.split]
    push_cast
    exact ⟨⟨hp.1.1, by linarith⟩, ⟨by linarith, hp.2.2⟩⟩
  · refine ⟨⟨b.x.split.2, b.y.split.1⟩, by simp [Box2D.split], ?_⟩
    rw [mem_setR]
    simp only [Interval.split]
    push_cast
    exact ⟨⟨by linarith, hp.1.2⟩, ⟨hp.2.1, by linarith⟩⟩
  · refine ⟨⟨b.x.split.2, b.y.split.2⟩, by simp [Box2D.split], ?_⟩
    rw [mem_setR]
    simp only [Interval.split]
    push_cast
    exact ⟨⟨by linarith, hp.1.2⟩, ⟨by linarith, hp.2.2⟩⟩

theorem split_int_sub (b : Box2D) (hb : b.WF) :
    ∀ q ∈ b.split, q.interiorR ⊆ b.interiorR := by
  intro q hq p hp
  obtain ⟨h1, h2⟩ := hb
  rw [Interval.WF] at h1 h2
  have hx : (b.x.min : ℝ) ≤ (b.x.max : ℝ) := by exact_mod_cast h1
  have hy : (b.y.min : ℝ) ≤ (b.y.max : ℝ) := by exact_mod_cast h2
  simp only [Box2D.split, List.mem_cons, List.mem_singleton, List.not_mem_nil, or_false] at hq
  rcases hq with rfl | rfl | rfl | rfl <;>
    · rw [mem_interiorR] at hp
      rw [mem_interiorR]
      simp only [Interval.split] at hp
      push_cast at hp
      constructor <;> constructor <;> linarith [hp.1.1, hp.1.2, hp.2.1, hp.2.2]

theorem split_pairwise (b : Box2D) :
    b.split.Pairwise fun q1 q2 => Disjoint q1.interiorR q2.interiorR := by
  have disjX : ∀ (i j : Interval), Disjoint
      (Box2D.interiorR ⟨b.x.split.1, i⟩) (Box2D.interiorR ⟨b.x.split.2, j⟩) := by
    intro i j
    rw [Set.disjoint_left]
    intro p hp1 hp2
    rw [mem_interiorR] at hp1 hp2
    simp only [Interval.split] at hp1 hp2
    linarith [hp1.1.2, hp2.1.1]
  have disjY : ∀ (i : Interval), Disjoint
      (Box2D.interiorR ⟨i, b.y.split.1⟩) (Box2D.interiorR ⟨i, b.y.split.2⟩) := by
    intro i
    rw [Set.disjoint_left]
    intro p hp1 hp2
    rw [mem_interiorR] at hp1 hp2
    simp only [Interval.split] at hp1 hp2
    linarith [hp1.2.2, hp2.2.1]
  simp only [Box2D.split, List.pairwise_cons, List.mem_cons, List.mem_singleton,
    List.not_mem_nil, or_false, List.Pairwise.nil]
  refine ⟨?_, ?_, ?_, ?_⟩
  · rintro q (rfl | rfl | rfl)
    exacts [disjY _, disjX _ _, disjX _ _]
  · rintro q (rfl | rfl)
    exacts [disjX _ _, disjX _ _]
  · rintro q rfl
    exact disjY _
  · simp

theorem split_area_sum (b : Box2D) : (b.split.map exactArea).sum = exactArea b := by
  simp only [Box2D.split, exactArea, Interval.split, List.map_cons, List.map_nil,
    List.sum_cons, List.sum_nil]
  ring

end Absint

namespace Absint

theorem map_snd_pri (eps : ℚ) (l : List Box2D) :
    (l.map fun q => (-(q.area eps).round, q)).map Prod.snd = l := by
  induction l with
  | nil => rfl
  | cons b tl ih => simp [ih]

theorem disj_symm : Symmetric fun b1 b2 : Box2D => Disjoint b1.interiorR b2.interiorR :=
  fun _ _ h => h.symm

theorem boxes_perm (st : SearchState) (pr : ℚ × Box2D) (rest : List (ℚ × Box2D))
    (h : popMin st.worklist = some (pr, rest)) :
    st.boxes.Perm (st.nonneg ++ pr.2 :: rest.map Prod.snd) := by
  rw [SearchState.boxes]
  refine List.Perm.append_left st.nonneg ?_
  have hp := (popMin_perm h).map Prod.snd
  simpa using hp

theorem popped_mem (st : SearchState) (pr : ℚ × Box2D) (rest : List (ℚ × Box2D))
    (h : popMin st.worklist = some (pr, rest)) : pr.2 ∈ st.boxes :=
  (boxes_perm st pr rest h).mem_iff.mpr
    (List.mem_append.mpr (Or.inr (List.mem_cons_self _ _)))

theorem can_be_negative_eq_true {i : Interval} :
    i.can_be_negative = true ↔ i.min < 0 := by
  simp [Interval.can_be_negative]

theorem can_be_negative_eq_false {i : Interval} :
    i.can_be_negative = false ↔ 0 ≤ i.min := by
  simp [Interval.can_be_negative, not_lt]

theorem can_be_nonnegative_eq_true {i : Interval} :
    i.can_be_nonnegative = true ↔ 0 ≤ i.max := by
  simp [Interval.can_be_nonnegative]

theorem can_be_nonnegative_eq_false {i : Interval} :
    i.can_be_nonnegative = false ↔ i.max < 0 := by
  simp [Interval.can_be_nonnegative, not_le]

theorem wfState_step (eps : ℚ) (f : Box2D → Interval) (st : SearchState)
    (hwf : WFState st) : WFState (step eps f st) := by
  cases hpop : popMin st.worklist with
  | none => rw [step, hpop]; exact hwf
  | some prrest =>
    obtain ⟨pr, rest⟩ := prrest
    have hBperm := boxes_perm st pr rest hpop
    have hboxwf : pr.2.WF := hwf pr.2 (popped_mem st pr rest hpop)
    have hold : ∀ b ∈ st.nonneg ++ pr.2 :: rest.map Prod.snd, b.WF := by
      intro b hb
      exact hwf b (hBperm.mem_iff.mpr hb)
    rw [step_eq eps f st pr rest hpop]
    intro b hb
    rw [SearchState.boxes] at hb
    rcases hneg : (f pr.2).can_be_negative with _ | _ <;>
      rcases hnn : (f pr.2).can_be_nonnegative with _ | _ <;>
        simp only [hneg, hnn, Bool.false_and, Bool.true_and, if_true, if_false,
          Bool.false_eq_true, List.map_append, map_snd_pri, List.mem_append,
          List.mem_cons, List.mem_singleton, List.not_mem_nil, or_false,
          List.mem_map, if_neg, if_pos] at hb
    · rcases hb with (hb | rfl) | hb
      · exact hold b (List.mem_append.mpr (Or.inl hb))
      · exact hboxwf
      · exact hold b (List.mem_append.mpr (Or.inr (List.mem_cons_of_mem _
          (List.mem_map.mpr hb))))
    · rcases hb with (hb | rfl) | hb
      · exact hold b (List.mem_append.mpr (Or.inl hb))
      · exact hboxwf
      · exact hold b (List.mem_append.mpr (Or.inr (List.mem_cons_of_mem _
          (List.mem_map.mpr hb))))
    · rcases hb with hb | hb
      · exact hold b (List.mem_append.mpr (Or.inl hb))
      · exact hold b (List.mem_append.mpr (Or.inr (List.mem_cons_of_mem _
          (List.mem_map.mpr hb))))
    · rcases hb with hb | hb | hb
      · exact hold b (List.mem_append.mpr (Or.inl hb))
      · exact hold b (List.mem_append.mpr (Or.inr (List.mem_cons_of_mem _
          (List.mem_map.mpr hb))))
      · exact split_wf pr.2 hboxwf b hb

theorem wfState_run (eps : ℚ) (f : Box2D → Interval) (n : Nat) (st : SearchState)
    (hwf : WFState st) : WFState (runState eps f n st) := by
  induction n generalizing st with
  | zero => exact hwf
  | succ k ih => exact ih (step eps f st) (wfState_step eps f st hwf)

end Absint


namespace Absint

theorem step_inv (eps : ℚ) (g : ℝ × ℝ → ℝ) (f : Box2D → Interval) (domain : Box2D)
    (st : SearchState) (hext : IsExtension g f) (hwf : WFState st)
    (hinv : Inv g domain st) : Inv g domain (step eps f st) := by
  cases hpop : popMin st.worklist with
  | none => rw [step, hpop]; exact hinv
  | some prrest =>
    obtain ⟨pr, rest⟩ := prrest
    have hBperm := boxes_perm st pr rest hpop
    have hboxmem := popped_mem st pr rest hpop
    have hboxwf : pr.2.WF := hwf pr.2 hboxmem
    have POld : (st.nonneg ++ pr.2 :: rest.map Prod.snd).Pairwise
        (fun b1 b2 => Disjoint b1.interiorR b2.interiorR) :=
      (List.Perm.pairwise_iff (fun h => h.symm) hBperm).mp hinv.disj
    have hmemOld : ∀ b, b ∈ st.nonneg ++ pr.2 :: rest.map Prod.snd → b ∈ st.boxes :=
      fun b hb => hBperm.mem_iff.mpr hb
    rcases hneg : (f pr.2).can_be_negative with _ | _
    · -- popped box is provably non-negative: moved to the resolved list
      rw [step_eq eps f st pr rest hpop, hneg]
      show Inv g domain ⟨st.nonneg ++ [pr.2], rest⟩
      have hEq : SearchState.boxes ⟨st.nonneg ++ [pr.2], rest⟩
          = st.nonneg ++ pr.2 :: rest.map Prod.snd := by
        simp [SearchState.boxes, List.append_assoc]
      refine ⟨?_, ?_, ?_, ?_⟩
      · intro b hb
        rw [hEq] at hb
        exact hinv.inDomain b (hmemOld b hb)
      · intro p hpd hpg
        obtain ⟨b, hbmem, hpb⟩ := hinv.cover p hpd hpg
        refine ⟨b, ?_, hpb⟩
        rw [hEq]
        exact hBperm.mem_iff.mp hbmem
      · intro b hb p hp
        rcases List.mem_append.mp hb with hb | hb
        · exact hinv.resolved b hb p hp
        · rw [List.mem_singleton] at hb
          rw [hb] at hp
          have hmin : (0:ℚ) ≤ (f pr.2).min := can_be_negative_eq_false.mp hneg
          have hcast : (0:ℝ) ≤ ((f pr.2).min : ℝ) := by exact_mod_cast hmin
          exact le_trans hcast ((hext pr.2 hboxwf p hp).1)
      · rw [hEq]
        exact POld
    · rcases hnn : (f pr.2).can_be_nonnegative with _ | _
      · -- popped box is provably negative: silently dropped
        rw [step_eq eps f st pr rest hpop, hneg, hnn]
        show Inv g domain ⟨st.nonneg, rest⟩
        have hEq : SearchState.boxes ⟨st.nonneg, rest⟩
            = st.nonneg ++ rest.map Prod.snd := rfl
        have hSub : (st.nonneg ++ rest.map Prod.snd).Sublist
            (st.nonneg ++ pr.2 :: rest.map Prod.snd) :=
          List.Sublist.append_left (List.sublist_cons_self _ _) _
        refine ⟨?_, ?_, ?_, ?_⟩
        · intro b hb
          rw [hEq] at hb
          exact hinv.inDomain b (hmemOld b (hSub.mem hb))
        · intro p hpd hpg
          obtain ⟨b, hbmem, hpb⟩ := hinv.cover p hpd hpg
          have hb2 := hBperm.mem_iff.mp hbmem
          rcases List.mem_append.mp hb2 with hb2 | hb2
          · refine ⟨b, ?_, hpb⟩
            rw [hEq]
            exact List.mem_append.mpr (Or.inl hb2)
          · rcases List.mem_cons.mp hb2 with hb3 | hb3
            · -- contradiction: f is provably negative on the popped box
              exfalso
              rw [hb3] at hpb
              have hmax : (f pr.2).max < 0 := can_be_nonnegative_eq_false.mp hnn
              have hcast : ((f pr.2).max : ℝ) < 0 := by exact_mod_cast hmax
              have hle := (hext pr.2 hboxwf p hpb).2
              linarith
            · refine ⟨b, ?_, hpb⟩
              rw [hEq]
              exact List.mem_append.mpr (Or.inr hb3)
        · intro b hb p hp
          exact hinv.resolved b hb p hp
        · rw [hEq]
          exact POld.sublist hSub
      · -- ambiguous: popped box quartered and children re-queued
        rw [step_eq eps f st pr rest hpop, hneg, hnn]
        show Inv g domain ⟨st.nonneg, rest ++ pr.2.split.map (fun q => (-(q.area eps).round, q))⟩
        have hEq : SearchState.boxes
              ⟨st.nonneg, rest ++ pr.2.split.map (fun q => (-(q.area eps).round, q))⟩
            = st.nonneg ++ (rest.map Prod.snd ++ pr.2.split) := by
          show st.nonneg ++ (rest ++ pr.2.split.map (fun q => (-(q.area eps).round, q))).map Prod.snd
              = st.nonneg ++ (rest.map Prod.snd ++ pr.2.split)
          rw [List.map_append, map_snd_pri]
        rcases List.pairwise_append.mp POld with ⟨PA, Pmid, crossA⟩
        rcases List.pairwise_cons.mp Pmid with ⟨boxR, PR⟩
        refine ⟨?_, ?_, ?_, ?_⟩
        · intro b hb
          rw [hEq] at hb
          rcases List.mem_append.mp hb with hb | hb
          · exact hinv.inDomain b (hmemOld b (List.mem_append.mpr (Or.inl hb)))
          · rcases List.mem_append.mp hb with hb | hb
            · exact hinv.inDomain b (hmemOld b
                (List.mem_append.mpr (Or.inr (List.mem_cons_of_mem _ hb))))
            · exact le_trans (split_sub pr.2 hboxwf b hb) (hinv.inDomain pr.2 hboxmem)
        · intro p hpd hpg
          obtain ⟨b, hbmem, hpb⟩ := hinv.cover p hpd hpg
          have hb2 := hBperm.mem_iff.mp hbmem
          rcases List.mem_append.mp hb2 with hb2 | hb2
          · refine ⟨b, ?_, hpb⟩
            rw [hEq]
            exact List.mem_append.mpr (Or.inl hb2)
          · rcases List.mem_cons.mp hb2 with hb3 | hb3
            · rw [hb3] at hpb
              obtain ⟨q, hq, hpq⟩ := split_cover pr.2 p hpb
              refine ⟨q, ?_, hpq⟩
              rw [hEq]
              exact List.mem_append.mpr (Or.inr (List.mem_append.mpr (Or.inr hq)))
            · refine ⟨b, ?_, hpb⟩
              rw [hEq]
              exact List.mem_append.mpr (Or.inr (List.mem_append.mpr (Or.inl hb3)))
        · intro b hb p hp
          exact hinv.resolved b hb p hp
        · rw [hEq]
          refine List.pairwise_append.mpr ⟨PA, ?_, ?_⟩
          · refine List.pairwise_append.mpr ⟨PR, split_pairwise pr.2, ?_⟩
            intro r hr q hq
            exact ((boxR r hr).mono_left (split_int_sub pr.2 hboxwf q hq)).symm
          · intro a ha c hc
            rcases List.mem_append.mp hc with hc | hc
            · exact crossA a ha c (List.mem_cons_of_mem _ hc)
            · exact (crossA a ha pr.2 (List.mem_cons_self _ _)).mono_right
                (split_int_sub pr.2 hboxwf c hc)

theorem inv_run (eps : ℚ) (g : ℝ × ℝ → ℝ) (f : Box2D → Interval) (domain : Box2D)
    (n : Nat) (st : SearchState) (hext : IsExtension g f) (hwf : WFState st)
    (hinv : Inv g domain st) : Inv g domain (runState eps f n st) := by
  induction n generalizing st with
  | zero => exact hinv
  | succ k ih =>
    exact ih (step eps f st) (wfState_step eps f st hwf)
      (step_inv eps g f domain st hext hwf hinv)

theorem init_wf (eps : ℚ) (domain : Box2D) (hd : domain.WF) :
    WFState (initState eps domain) := by
  intro b hb
  simp [initState, SearchState.boxes] at hb
  subst hb
  exact hd

theorem init_inv (eps : ℚ) (g : ℝ × ℝ → ℝ) (domain : Box2D) :
    Inv g domain (initState eps domain) := by
  refine ⟨?_, ?_, ?_, ?_⟩
  · intro b hb
    simp [initState, SearchState.boxes] at hb
    subst hb
    exact le_refl _
  · intro p hpd hpg
    refine ⟨domain, ?_, hpd⟩
    simp [initState, SearchState.boxes]
  · intro b hb
    simp [initState] at hb
  · simp [initState, SearchState.boxes]

end Absint

namespace Absint

theorem mem_listUnion {l : List (Set (ℝ × ℝ))} {p : ℝ × ℝ} :
    p ∈ listUnion l ↔ ∃ s ∈ l, p ∈ s := by
  induction l with
  | nil => simp [listUnion]
  | cons s ts ih => simp [listUnion, ih]

theorem listUnion_subset {l : List (Set (ℝ × ℝ))} {S : Set (ℝ × ℝ)}
    (h : ∀ s ∈ l, s ⊆ S) : listUnion l ⊆ S := by
  intro p hp
  obtain ⟨s, hs, hps⟩ := mem_listUnion.mp hp
  exact h s hs hps

theorem isOpen_listUnion_int (l : List Box2D) :
    IsOpen (listUnion (l.map Box2D.interiorR)) := by
  induction l with
  | nil => exact isOpen_empty
  | cons b ts ih =>
    exact IsOpen.union (IsOpen.prod isOpen_Ioo isOpen_Ioo) ih

theorem disjoint_listUnion {s : Set (ℝ × ℝ)} {l : List (Set (ℝ × ℝ))}
    (h : ∀ t ∈ l, Disjoint s t) : Disjoint s (listUnion l) := by
  induction l with
  | nil => simp [listUnion]
  | cons t ts ih =>
    rw [listUnion]
    exact Disjoint.union_right (h t (List.mem_cons_self _ _))
      (ih fun u hu => h u (List.mem_cons_of_mem _ hu))

theorem volume_setR (b : Box2D) (hb : b.WF) :
    volume b.setR = ENNReal.ofReal ((exactArea b : ℚ) : ℝ) := by
  rw [Box2D.setR, Interval.setR, Interval.setR, Measure.volume_eq_prod, Measure.prod_prod,
    Real.volume_Icc, Real.volume_Icc,
    ← ENNReal.ofReal_mul (by exact_mod_cast sub_nonneg.mpr hb.1)]
  congr 1
  push_cast [exactArea]
  ring

theorem volume_interiorR (b : Box2D) (hb : b.WF) :
    volume b.interiorR = ENNReal.ofReal ((exactArea b : ℚ) : ℝ) := by
  rw [Box2D.interiorR, Interval.interiorSetR, Interval.interiorSetR, Measure.volume_eq_prod,
    Measure.prod_prod, Real.volume_Ioo, Real.volume_Ioo,
    ← ENNReal.ofReal_mul (by exact_mod_cast sub_nonneg.mpr hb.1)]
  congr 1
  push_cast [exactArea]
  ring

theorem volume_listUnion_le (l : List (Set (ℝ × ℝ))) :
    volume (listUnion l) ≤ (l.map volume).sum := by
  induction l with
  | nil => simp [listUnion]
  | cons s ts ih =>
    rw [listUnion, List.map_cons, List.sum_cons]
    exact le_trans (measure_union_le s (listUnion ts)) (add_le_add_left ih _)

theorem volume_listUnion_int_eq (l : List Box2D)
    (hd : l.Pairwise fun b1 b2 => Disjoint b1.interiorR b2.interiorR) :
    volume (listUnion (l.map Box2D.interiorR))
      = (l.map fun b => volume b.interiorR).sum := by
  induction l with
  | nil => simp [listUnion]
  | cons b ts ih =>
    rcases List.pairwise_cons.mp hd with ⟨hb, hts⟩
    rw [List.map_cons, listUnion, List.map_cons, List.sum_cons, ← ih hts]
    refine measure_union ?_ (isOpen_listUnion_int ts).measurableSet
    refine disjoint_listUnion ?_
    intro t ht
    obtain ⟨c, hc, rfl⟩ := List.mem_map.mp ht
    exact hb c hc

theorem sum_volume_int_eq (l : List Box2D) (h : ∀ b ∈ l, b.WF) :
    (l.map fun b => volume b.interiorR).sum
      = ENNReal.ofReal (((l.map exactArea).sum : ℚ) : ℝ) := by
  induction l with
  | nil => simp
  | cons b ts ih =>
    have hb := h b (List.mem_cons_self _ _)
    have hts : ∀ c ∈ ts, c.WF := fun c hc => h c (List.mem_cons_of_mem _ hc)
    have hba : (0:ℝ) ≤ ((exactArea b : ℚ) : ℝ) := by
      exact_mod_cast mul_nonneg (sub_nonneg.mpr hb.1) (sub_nonneg.mpr hb.2)
    have hsa : (0:ℝ) ≤ (((ts.map exactArea).sum : ℚ) : ℝ) := by
      exact_mod_cast sum_exactArea_nonneg ts hts
    rw [List.map_cons, List.sum_cons, ih hts, volume_interiorR b hb,
      ← ENNReal.ofReal_add hba hsa]
    congr 1
    rw [List.map_cons, List.sum_cons]
    push_cast
    ring

theorem sum_volume_setR_le (l : List Box2D) (h : ∀ b ∈ l, b.WF) :
    ((l.map Box2D.setR).map volume).sum
      = ENNReal.ofReal (((l.map exactArea).sum : ℚ) : ℝ) := by
  induction l with
  | nil => simp
  | cons b ts ih =>
    have hb := h b (List.mem_cons_self _ _)
    have hts : ∀ c ∈ ts, c.WF := fun c hc => h c (List.mem_cons_of_mem _ hc)
    have hba : (0:ℝ) ≤ ((exactArea b : ℚ) : ℝ) := by
      exact_mod_cast mul_nonneg (sub_nonneg.mpr hb.1) (sub_nonneg.mpr hb.2)
    have hsa : (0:ℝ) ≤ (((ts.map exactArea).sum : ℚ) : ℝ) := by
      exact_mod_cast sum_exactArea_nonneg ts hts
    rw [List.map_cons, List.map_cons, List.sum_cons, ih hts, volume_setR b hb,
      ← ENNReal.ofReal_add hba hsa]
    congr 1
    rw [List.map_cons, List.sum_cons]
    push_cast
    ring

end Absint

namespace Absint

theorem worklist_areas_eq (eps : ℚ) (l : List (ℚ × Box2D)) :
    l.map (fun it => it.2.area eps) = (l.map Prod.snd).map (Box2D.area eps) := by
  rw [List.map_map]
  rfl

theorem enclosure_general (eps : ℚ) (h0 : 0 ≤ eps) (g : ℝ × ℝ → ℝ) (f : Box2D → Interval)
    (domain : Box2D) (n : Nat) (hd : domain.WF) (hext : IsExtension g f) :
    ENNReal.ofReal (((probability_nonnegative eps f domain n).min : ℚ) : ℝ)
      ≤ volume {p : ℝ × ℝ | p ∈ domain.setR ∧ 0 ≤ g p} ∧
    volume {p : ℝ × ℝ | p ∈ domain.setR ∧ 0 ≤ g p}
      ≤ ENNReal.ofReal (((probability_nonnegative eps f domain n).max : ℚ) : ℝ) := by
  have hwf : WFState (finalState eps f domain n) :=
    wfState_run eps f n (initState eps domain) (init_wf eps domain hd)
  have hinv : Inv g domain (finalState eps f domain n) :=
    inv_run eps g f domain n (initState eps domain) hext (init_wf eps domain hd)
      (init_inv eps g domain)
  set st := finalState eps f domain n with hst
  have hboxes : st.boxes = st.nonneg ++ st.worklist.map Prod.snd := rfl
  have hNwf : ∀ b ∈ st.nonneg, b.WF := fun b hb =>
    hwf b (List.mem_append.mpr (Or.inl hb))
  have hWwf : ∀ b ∈ st.worklist.map Prod.snd, b.WF := fun b hb =>
    hwf b (List.mem_append.mpr (Or.inr hb))
  have hBwf : ∀ b ∈ st.boxes, b.WF := hwf
  have hlow : (lower_bound_of eps f domain n).contains
      ((st.nonneg.map exactArea).sum) := sum_area_contains eps h0 st.nonneg
  have hrest : (sumIntervals eps (st.worklist.map (fun it => it.2.area eps))).contains
      (((st.worklist.map Prod.snd).map exactArea).sum) := by
    rw [worklist_areas_eq]
    exact sum_area_contains eps h0 (st.worklist.map Prod.snd)
  have hup : (upper_bound_of eps f domain n).contains
      ((st.nonneg.map exactArea).sum + ((st.worklist.map Prod.snd).map exactArea).sum) :=
    add_contains eps h0 _ _ _ _ hlow hrest
  have hresult : probability_nonnegative eps f domain n
      = Interval.wrap (lower_bound_of eps f domain n) (upper_bound_of eps f domain n) := rfl
  constructor
  · -- lower endpoint is below the true measure
    have hNdisj : st.nonneg.Pairwise fun b1 b2 => Disjoint b1.interiorR b2.interiorR := by
      have hd2 := hinv.disj
      rw [hboxes] at hd2
      exact (List.pairwise_append.mp hd2).1
    have hvol : volume (listUnion (st.nonneg.map Box2D.interiorR))
        = ENNReal.ofReal (((st.nonneg.map exactArea).sum : ℚ) : ℝ) := by
      rw [volume_listUnion_int_eq st.nonneg hNdisj, sum_volume_int_eq st.nonneg hNwf]
    have hsubS : listUnion (st.nonneg.map Box2D.interiorR)
        ⊆ {p : ℝ × ℝ | p ∈ domain.setR ∧ 0 ≤ g p} := by
      refine listUnion_subset ?_
      intro s hs
      obtain ⟨b, hb, rfl⟩ := List.mem_map.mp hs
      intro p hp
      have hp2 : p ∈ b.setR := interiorR_subset_setR b hp
      refine ⟨hinv.inDomain b (List.mem_append.mpr (Or.inl hb)) hp2, ?_⟩
      exact hinv.resolved b hb p hp2
    have h1 : (((probability_nonnegative eps f domain n).min : ℚ) : ℝ)
        ≤ (((st.nonneg.map exactArea).sum : ℚ) : ℝ) := by
      have : (probability_nonnegative eps f domain n).min
          ≤ (st.nonneg.map exactArea).sum := by
        rw [hresult]
        exact le_trans (wrap_min_le_left _ _) hlow.1
      exact_mod_cast this
    calc ENNReal.ofReal (((probability_nonnegative eps f domain n).min : ℚ) : ℝ)
        ≤ ENNReal.ofReal (((st.nonneg.map exactArea).sum : ℚ) : ℝ) :=
          ENNReal.ofReal_le_ofReal h1
      _ = volume (listUnion (st.nonneg.map Box2D.interiorR)) := hvol.symm
      _ ≤ volume {p : ℝ × ℝ | p ∈ domain.setR ∧ 0 ≤ g p} := measure_mono hsubS
  · -- the true measure is below the upper endpoint
    have hSsub : {p : ℝ × ℝ | p ∈ domain.setR ∧ 0 ≤ g p}
        ⊆ listUnion (st.boxes.map Box2D.setR) := by
      intro p hp
      obtain ⟨b, hb, hpb⟩ := hinv.cover p hp.1 hp.2
      exact mem_listUnion.mpr ⟨b.setR, List.mem_map.mpr ⟨b, hb, rfl⟩, hpb⟩
    have hsum : ((st.boxes.map Box2D.setR).map volume).sum
        = ENNReal.ofReal (((st.boxes.map exactArea).sum : ℚ) : ℝ) :=
      sum_volume_setR_le st.boxes hBwf
    have hsplit : (st.boxes.map exactArea).sum
        = (st.nonneg.map exactArea).sum + ((st.worklist.map Prod.snd).map exactArea).sum := by
      rw [hboxes, List.map_append, List.sum_append]
    have h2 : (((st.boxes.map exactArea).sum : ℚ) : ℝ)
        ≤ (((probability_nonnegative eps f domain n).max : ℚ) : ℝ) := by
      have : (st.boxes.map exactArea).sum
          ≤ (probability_nonnegative eps f domain n).max := by
        rw [hresult, hsplit]
        exact le_trans hup.2 (le_wrap_max_right _ _)
      exact_mod_cast this
    calc volume {p : ℝ × ℝ | p ∈ domain.setR ∧ 0 ≤ g p}
        ≤ volume (listUnion (st.boxes.map Box2D.setR)) := measure_mono hSsub
      _ ≤ ((st.boxes.map Box2D.setR).map volume).sum := volume_listUnion_le _
      _ = ENNReal.ofReal (((st.boxes.map exactArea).sum : ℚ) : ℝ) := hsum
      _ ≤ ENNReal.ofReal (((probability_nonnegative eps f domain n).max : ℚ) : ℝ) :=
          ENNReal.ofReal_le_ofReal h2

end Absint

namespace Absint

theorem account_zero (i : Interval) : i.account_for_rounding_errors 0 = i := by
  apply interval_eq <;> simp [Interval.account_for_rounding_errors]

theorem add_zero_eval (a b : Interval) : a.add 0 b = ⟨a.min + b.min, a.max + b.max⟩ := by
  rw [Interval.add, account_zero]

theorem area_zero (b : Box2D) : b.area 0 = Interval.singleton (exactArea b) := by
  rw [Box2D.area, Interval.length, Interval.length, account_zero, account_zero]
  apply interval_eq <;>
    simp [Interval.mul, Interval.singleton, account_zero, min_self, max_self, exactArea]

theorem foldl_add_zero (l : List Box2D) :
    ∀ x : ℚ, l.foldl (fun a c => a.add 0 (c.area 0)) (Interval.singleton x)
      = Interval.singleton (x + (l.map exactArea).sum) := by
  induction l with
  | nil => intro x; simp
  | cons b tl ih =>
    intro x
    have e1 : (Interval.singleton x).add 0 (b.area 0)
        = Interval.singleton (x + exactArea b) := by
      rw [area_zero, add_zero_eval]
      rfl
    simp only [List.foldl_cons, e1, ih, List.map_cons, List.sum_cons]
    congr 1
    ring

theorem sumIntervals_zero (l : List Box2D) :
    sumIntervals 0 (l.map (Box2D.area 0)) = Interval.singleton ((l.map exactArea).sum) := by
  have h := foldl_add_zero l 0
  rw [zero_add] at h
  rw [sumIntervals, List.foldl_map]
  exact h

theorem prob_zero_eq (f : Box2D → Interval) (d : Box2D) (n : Nat) (hd : d.WF) :
    probability_nonnegative 0 f d n
      = ⟨Lq (finalState 0 f d n), Lq (finalState 0 f d n) + Rq (finalState 0 f d n)⟩ := by
  have hwf : WFState (finalState 0 f d n) :=
    wfState_run 0 f n (initState 0 d) (init_wf 0 d hd)
  have hWwf : ∀ b ∈ (finalState 0 f d n).worklist.map Prod.snd, b.WF := fun b hb =>
    hwf b (List.mem_append.mpr (Or.inr hb))
  have hR : 0 ≤ Rq (finalState 0 f d n) :=
    sum_exactArea_nonneg _ hWwf
  have hlower : lower_bound_of 0 f d n = Interval.singleton (Lq (finalState 0 f d n)) := by
    rw [lower_bound_of, sumIntervals_zero]
    rfl
  have hrest : sumIntervals 0 ((finalState 0 f d n).worklist.map (fun it => it.2.area 0))
      = Interval.singleton (Rq (finalState 0 f d n)) := by
    rw [worklist_areas_eq, sumIntervals_zero]
    rfl
  have hupper : upper_bound_of 0 f d n
      = ⟨Lq (finalState 0 f d n) + Rq (finalState 0 f d n),
         Lq (finalState 0 f d n) + Rq (finalState 0 f d n)⟩ := by
    rw [upper_bound_of, hlower, hrest, add_zero_eval]
    rfl
  rw [probability_nonnegative, hlower, hupper, Interval.wrap]
  apply interval_eq
  · show Min.min (Lq (finalState 0 f d n))
        (Lq (finalState 0 f d n) + Rq (finalState 0 f d n)) = _
    exact min_eq_left (by linarith)
  · show Max.max (Lq (finalState 0 f d n))
        (Lq (finalState 0 f d n) + Rq (finalState 0 f d n)) = _
    exact max_eq_right (by linarith)

theorem Lq_Rq_step (eps : ℚ) (f : Box2D → Interval) (st : SearchState)
    (hwf : WFState st) :
    Lq st ≤ Lq (step eps f st) ∧
      Lq (step eps f st) + Rq (step eps f st) ≤ Lq st + Rq st := by
  cases hpop : popMin st.worklist with
  | none => rw [step, hpop]; exact ⟨le_refl _, le_refl _⟩
  | some prrest =>
    obtain ⟨pr, rest⟩ := prrest
    have hperm := popMin_perm hpop
    have hA : 0 ≤ exactArea pr.2 := by
      have hbwf := hwf pr.2 (popped_mem st pr rest hpop)
      exact mul_nonneg (sub_nonneg.mpr hbwf.1) (sub_nonneg.mpr hbwf.2)
    have hRsplit : Rq st = exactArea pr.2 + ((rest.map Prod.snd).map exactArea).sum := by
      rw [Rq]
      have hp2 := ((hperm.map Prod.snd).map exactArea).sum_eq
      simpa using hp2
    rcases hneg : (f pr.2).can_be_negative with _ | _
    · rw [step_eq eps f st pr rest hpop, hneg]
      show Lq st ≤ Lq ⟨st.nonneg ++ [pr.2], rest⟩ ∧
        Lq ⟨st.nonneg ++ [pr.2], rest⟩ + Rq ⟨st.nonneg ++ [pr.2], rest⟩ ≤ Lq st + Rq st
      have hL : Lq ⟨st.nonneg ++ [pr.2], rest⟩ = Lq st + exactArea pr.2 := by
        simp [Lq]
      have hRr : Rq ⟨st.nonneg ++ [pr.2], rest⟩
          = ((rest.map Prod.snd).map exactArea).sum := rfl
      rw [hL, hRr, hRsplit]
      exact ⟨le_add_of_nonneg_right hA, by linarith⟩
    · rcases hnn : (f pr.2).can_be_nonnegative with _ | _
      · rw [step_eq eps f st pr rest hpop, hneg, hnn]
        show Lq st ≤ Lq ⟨st.nonneg, rest⟩ ∧
          Lq ⟨st.nonneg, rest⟩ + Rq ⟨st.nonneg, rest⟩ ≤ Lq st + Rq st
        have hRr : Rq ⟨st.nonneg, rest⟩ = ((rest.map Prod.snd).map exactArea).sum := rfl
        have hL : Lq ⟨st.nonneg, rest⟩ = Lq st := rfl
        rw [hL, hRr, hRsplit]
        exact ⟨le_refl _, by linarith⟩
      · rw [step_eq eps f st pr rest hpop, hneg, hnn]
        show Lq st ≤ Lq ⟨st.nonneg, rest ++ pr.2.split.map (fun q => (-(q.area eps).round, q))⟩ ∧
          Lq ⟨st.nonneg, rest ++ pr.2.split.map (fun q => (-(q.area eps).round, q))⟩
            + Rq ⟨st.nonneg, rest ++ pr.2.split.map (fun q => (-(q.area eps).round, q))⟩
            ≤ Lq st + Rq st
        have hL : Lq ⟨st.nonneg, rest ++ pr.2.split.map (fun q => (-(q.area eps).round, q))⟩
            = Lq st := rfl
        have hRr : Rq ⟨st.nonneg, rest ++ pr.2.split.map (fun q => (-(q.area eps).round, q))⟩
            = ((rest.map Prod.snd).map exactArea).sum + exactArea pr.2 := by
          rw [Rq]
          show (((rest ++ pr.2.split.map (fun q => (-(q.area eps).round, q))).map
              Prod.snd).map exactArea).sum = _
          rw [List.map_append, map_snd_pri, List.map_append, List.sum_append, split_area_sum]
        rw [hL, hRr, hRsplit]
        exact ⟨le_refl _, by linarith⟩

theorem Lq_Rq_run (eps : ℚ) (f : Box2D → Interval) (k : Nat) (st : SearchState)
    (hwf : WFState st) :
    Lq st ≤ Lq (runState eps f k st) ∧
      Lq (runState eps f k st) + Rq (runState eps f k st) ≤ Lq st + Rq st := by
  induction k generalizing st with
  | zero => exact ⟨le_refl _, le_refl _⟩
  | succ j ih =>
    have hstep := Lq_Rq_step eps f st hwf
    have hrec := ih (step eps f st) (wfState_step eps f st hwf)
    exact ⟨le_trans hstep.1 hrec.1, le_trans hrec.2 hstep.2⟩

end Absint

namespace Absint

theorem add_singleton_zero (eps : ℚ) :
    (Interval.mk 0 0).add eps (Interval.mk 0 0) = ⟨0, 0⟩ := by
  apply interval_eq <;>
    simp [Interval.add, Interval.singleton, Interval.account_for_rounding_errors]

theorem prob_allneg (eps : ℚ) (f : Box2D → Interval) (d : Box2D) (n : Nat)
    (hWF : (f d).WF) (hmax : (f d).max < 0) (hn : 1 ≤ n) :
    probability_nonnegative eps f d n = ⟨0, 0⟩ := by
  obtain ⟨k, rfl⟩ : ∃ k, n = k + 1 := ⟨n - 1, by omega⟩
  have hneg : (f d).can_be_negative = true :=
    can_be_negative_eq_true.mpr (lt_of_le_of_lt hWF hmax)
  have hnn : (f d).can_be_nonnegative = false :=
    can_be_nonnegative_eq_false.mpr hmax
  have hstep : step eps f (initState eps d) = ⟨[], []⟩ := by
    rw [step_eq eps f (initState eps d) (-(d.area eps).round, d) [] rfl, hneg, hnn]
    rfl
  have hfinal : finalState eps f d (k + 1) = ⟨[], []⟩ := by
    rw [finalState, runState, hstep]
    exact runState_empty eps f k ⟨[], []⟩ rfl
  have hlow : lower_bound_of eps f d (k + 1) = Interval.singleton 0 := by
    rw [lower_bound_of, hfinal]
    rfl
  have hup : upper_bound_of eps f d (k + 1) = ⟨0, 0⟩ := by
    rw [upper_bound_of, hlow, hfinal]
    show (Interval.singleton 0).add eps (Interval.singleton 0) = _
    exact add_singleton_zero eps
  rw [probability_nonnegative, hlow, hup]
  apply interval_eq <;> simp [Interval.wrap, Interval.singleton]

theorem length_point (eps : ℚ) (i : Interval) (h : i.min = i.max) :
    i.length eps = ⟨0, 0⟩ := by
  apply interval_eq <;>
    simp [Interval.length, Interval.singleton, Interval.account_for_rounding_errors, h]

theorem area_point (eps : ℚ) (b : Box2D) (h : IsPoint b) : b.area eps = ⟨0, 0⟩ := by
  rw [Box2D.area, length_point eps b.x h.1, length_point eps b.y h.2]
  apply interval_eq <;>
    simp [Interval.mul, Interval.account_for_rounding_errors]

theorem split_point (b : Box2D) (h : IsPoint b) : ∀ q ∈ b.split, IsPoint q := by
  intro q hq
  have hx : (b.x.min + b.x.max) / 2 = b.x.min := by rw [h.1]; ring
  have hy : (b.y.min + b.y.max) / 2 = b.y.min := by rw [h.2]; ring
  simp only [Box2D.split, List.mem_cons, List.mem_singleton, List.not_mem_nil, or_false] at hq
  rcases hq with rfl | rfl | rfl | rfl <;>
    exact ⟨by simp [Interval.split, hx, hy, h.1, h.2], by simp [Interval.split, hx, hy, h.1, h.2]⟩

theorem point_step (eps : ℚ) (f : Box2D → Interval) (st : SearchState)
    (h : ∀ b ∈ st.boxes, IsPoint b) : ∀ b ∈ (step eps f st).boxes, IsPoint b := by
  cases hpop : popMin st.worklist with
  | none => rw [step, hpop]; exact h
  | some prrest =>
    obtain ⟨pr, rest⟩ := prrest
    have hBperm := boxes_perm st pr rest hpop
    have hboxpt : IsPoint pr.2 := h pr.2 (popped_mem st pr rest hpop)
    have hold : ∀ b ∈ st.nonneg ++ pr.2 :: rest.map Prod.snd, IsPoint b := by
      intro b hb
      exact h b (hBperm.mem_iff.mpr hb)
    intro b hb
    rw [step_eq eps f st pr rest hpop] at hb
    rcases hneg : (f pr.2).can_be_negative with _ | _ <;> rw [hneg] at hb
    · have hb2 : b ∈ st.nonneg ++ pr.2 :: rest.map Prod.snd := by
        have : b ∈ (st.nonneg ++ [pr.2]) ++ rest.map Prod.snd := hb
        simpa [List.append_assoc] using this
      exact hold b hb2
    · rcases hnn : (f pr.2).can_be_nonnegative with _ | _ <;> rw [hnn] at hb
      · have hb2 : b ∈ st.nonneg ++ rest.map Prod.snd := hb
        rcases List.mem_append.mp hb2 with hb3 | hb3
        · exact hold b (List.mem_append.mpr (Or.inl hb3))
        · exact hold b (List.mem_append.mpr (Or.inr (List.mem_cons_of_mem _ hb3)))
      · have hb2 : b ∈ st.nonneg
            ++ (rest ++ pr.2.split.map (fun q => (-(q.area eps).round, q))).map Prod.snd := hb
        rw [List.map_append, map_snd_pri] at hb2
        rcases List.mem_append.mp hb2 with hb3 | hb3
        · exact hold b (List.mem_append.mpr (Or.inl hb3))
        · rcases List.mem_append.mp hb3 with hb4 | hb4
          · exact hold b (List.mem_append.mpr (Or.inr (List.mem_cons_of_mem _ hb4)))
          · exact split_point pr.2 hboxpt b hb4

theorem point_run (eps : ℚ) (f : Box2D → Interval) (n : Nat) (st : SearchState)
    (h : ∀ b ∈ st.boxes, IsPoint b) : ∀ b ∈ (runState eps f n st).boxes, IsPoint b := by
  induction n generalizing st with
  | zero => exact h
  | succ k ih => exact ih (step eps f st) (point_step eps f st h)

theorem sum_zero_intervals (eps : ℚ) (l : List Interval)
    (h : ∀ i ∈ l, i = (⟨0, 0⟩ : Interval)) : sumIntervals eps l = ⟨0, 0⟩ := by
  have hz : (Interval.singleton 0) = (⟨0, 0⟩ : Interval) := rfl
  rw [sumIntervals, hz]
  induction l with
  | nil => rfl
  | cons i tl ih =>
    rw [List.foldl_cons, h i (List.mem_cons_self _ _), add_singleton_zero eps]
    exact ih fun j hj => h j (List.mem_cons_of_mem _ hj)

end Absint

namespace Absint

theorem prob_point_eq (eps : ℚ) (f : Box2D → Interval) (a b : ℚ) (n : Nat) :
    probability_nonnegative eps f ⟨⟨a, a⟩, ⟨b, b⟩⟩ n = ⟨0, 0⟩ := by
  have hpt : ∀ c ∈ (finalState eps f ⟨⟨a, a⟩, ⟨b, b⟩⟩ n).boxes, IsPoint c := by
    refine point_run eps f n _ ?_
    intro c hc
    simp [initState, SearchState.boxes] at hc
    subst hc
    exact ⟨rfl, rfl⟩
  have hlow : lower_bound_of eps f ⟨⟨a, a⟩, ⟨b, b⟩⟩ n = ⟨0, 0⟩ := by
    rw [lower_bound_of]
    refine sum_zero_intervals eps _ ?_
    intro i hi
    obtain ⟨c, hc, rfl⟩ := List.mem_map.mp hi
    exact area_point eps c (hpt c (List.mem_append.mpr (Or.inl hc)))
  have hrest : sumIntervals eps
      ((finalState eps f ⟨⟨a, a⟩, ⟨b, b⟩⟩ n).worklist.map (fun it => it.2.area eps))
      = ⟨0, 0⟩ := by
    refine sum_zero_intervals eps _ ?_
    intro i hi
    obtain ⟨c, hc, rfl⟩ := List.mem_map.mp hi
    refine area_point eps c.2 (hpt c.2 (List.mem_append.mpr (Or.inr ?_)))
    exact List.mem_map.mpr ⟨c, hc, rfl⟩
  have hup : upper_bound_of eps f ⟨⟨a, a⟩, ⟨b, b⟩⟩ n = ⟨0, 0⟩ := by
    rw [upper_bound_of, hlow, hrest]
    exact add_singleton_zero eps
  rw [probability_nonnegative, hlow, hup]
  apply interval_eq <;> simp [Interval.wrap]

theorem good_account (eps : ℚ) (h0 : 0 ≤ eps) (h1 : eps ≤ 1) (i : Interval)
    (h : GoodI i) : GoodI (i.account_for_rounding_errors eps) := by
  refine ⟨?_, account_wf eps h0 i h.2⟩
  show 0 ≤ i.min - |i.min| * eps
  rw [abs_of_nonneg h.1]
  nlinarith [h.1]

theorem good_add (eps : ℚ) (h0 : 0 ≤ eps) (h1 : eps ≤ 1) (a b : Interval)
    (ha : GoodI a) (hb : GoodI b) : GoodI (a.add eps b) := by
  refine good_account eps h0 h1 _ ⟨?_, ?_⟩
  · exact add_nonneg ha.1 hb.1
  · exact add_le_add ha.2 hb.2

theorem good_mul (eps : ℚ) (h0 : 0 ≤ eps) (h1 : eps ≤ 1) (a b : Interval)
    (ha : GoodI a) (hb : GoodI b) : GoodI (a.mul eps b) := by
  have haM : 0 ≤ a.max := le_trans ha.1 ha.2
  have hbM : 0 ≤ b.max := le_trans hb.1 hb.2
  refine good_account eps h0 h1 _ ⟨?_, ?_⟩
  · exact le_min (le_min (mul_nonneg ha.1 hb.1) (mul_nonneg ha.1 hbM))
      (le_min (mul_nonneg haM hb.1) (mul_nonneg haM hbM))
  · exact le_trans (le_trans (min_le_left _ _) (min_le_left _ _))
      (le_trans (le_max_left _ _) (le_max_left _ _))

theorem good_length (eps : ℚ) (h0 : 0 ≤ eps) (h1 : eps ≤ 1) (i : Interval)
    (hi : i.WF) : GoodI (i.length eps) := by
  refine good_account eps h0 h1 _ ⟨?_, le_refl _⟩
  exact sub_nonneg.mpr hi

theorem good_area (eps : ℚ) (h0 : 0 ≤ eps) (h1 : eps ≤ 1) (b : Box2D)
    (hb : b.WF) : GoodI (b.area eps) :=
  good_mul eps h0 h1 _ _ (good_length eps h0 h1 b.x hb.1) (good_length eps h0 h1 b.y hb.2)

theorem good_foldl (eps : ℚ) (h0 : 0 ≤ eps) (h1 : eps ≤ 1) (l : List Box2D) :
    ∀ acc : Interval, GoodI acc → (∀ b ∈ l, b.WF) →
      GoodI (l.foldl (fun a c => a.add eps (c.area eps)) acc) := by
  induction l with
  | nil => intro acc hacc _; exact hacc
  | cons b tl ih =>
    intro acc hacc h
    rw [List.foldl_cons]
    exact ih _ (good_add eps h0 h1 _ _ hacc
      (good_area eps h0 h1 b (h b (List.mem_cons_self _ _))))
      (fun c hc => h c (List.mem_cons_of_mem _ hc))

theorem good_sum_area (eps : ℚ) (h0 : 0 ≤ eps) (h1 : eps ≤ 1) (l : List Box2D)
    (h : ∀ b ∈ l, b.WF) : GoodI (sumIntervals eps (l.map (Box2D.area eps))) := by
  rw [sumIntervals, List.foldl_map]
  exact good_foldl eps h0 h1 l (Interval.singleton 0) ⟨le_refl _, le_refl _⟩ h

theorem prob_good (eps : ℚ) (h0 : 0 ≤ eps) (h1 : eps ≤ 1) (f : Box2D → Interval)
    (d : Box2D) (n : Nat) (hd : d.WF) :
    0 ≤ (probability_nonnegative eps f d n).min ∧
      (probability_nonnegative eps f d n).min ≤ (probability_nonnegative eps f d n).max := by
  have hwf : WFState (finalState eps f d n) :=
    wfState_run eps f n (initState eps d) (init_wf eps d hd)
  have hNwf : ∀ b ∈ (finalState eps f d n).nonneg, b.WF := fun b hb =>
    hwf b (List.mem_append.mpr (Or.inl hb))
  have hWwf : ∀ b ∈ (finalState eps f d n).worklist.map Prod.snd, b.WF := fun b hb =>
    hwf b (List.mem_append.mpr (Or.inr hb))
  have hlow : GoodI (lower_bound_of eps f d n) :=
    good_sum_area eps h0 h1 _ hNwf
  have hrest : GoodI (sumIntervals eps
      ((finalState eps f d n).worklist.map (fun it => it.2.area eps))) := by
    rw [worklist_areas_eq]
    exact good_sum_area eps h0 h1 _ hWwf
  have hup : GoodI (upper_bound_of eps f d n) :=
    good_add eps h0 h1 _ _ hlow hrest
  constructor
  · exact le_min hlow.1 hup.1
  · exact le_trans (min_le_left _ _) (le_trans hlow.2 (le_max_left _ _))

end Absint

namespace Absint

theorem unitBox_wf : unitBox.WF := by
  constructor <;> norm_num [unitBox, Interval.WF]

theorem domTwo_wf : domTwo.WF := by
  constructor <;> norm_num [domTwo, Interval.WF]

theorem gZero_ext_fZero : IsExtension gZero fZero := by
  intro b _ p _
  constructor <;> norm_num [gZero, fZero]

theorem gZero_ext_fAmb : IsExtension gZero fAmb := by
  intro b _ p _
  constructor <;> norm_num [gZero, fAmb]

/-- Claim C1 (amended): for every rigorous interval extension `f` of `g`, every
well-formed domain box and every iteration budget, the interval returned by
`probability_nonnegative` encloses the true measure (area) of the set of
points of the domain where `g` is non-negative — the code returns bounds on
the absolute area, not on the normalized probability/area fraction. -/
theorem C1_area_enclosure (g : ℝ × ℝ → ℝ) (f : Box2D → Interval) (domain : Box2D)
    (n : Nat) (hd : domain.WF) (hext : IsExtension g f) :
    ENNReal.ofReal (((probability_nonnegative machineEps f domain n).min : ℚ) : ℝ)
      ≤ volume {p : ℝ × ℝ | p ∈ domain.setR ∧ 0 ≤ g p} ∧
    volume {p : ℝ × ℝ | p ∈ domain.setR ∧ 0 ≤ g p}
      ≤ ENNReal.ofReal (((probability_nonnegative machineEps f domain n).max : ℚ) : ℝ) :=
  enclosure_general machineEps eps_pos g f domain n hd hext

/-- Claim C1, counterexample to the claim as stated: on the 2-by-2 domain with
the constant function one, the true probability/area-fraction of the
non-negative set is `1`, yet the returned interval lies entirely above `1`
(it encloses the absolute area, about `4`), so the returned interval does not
contain the true area fraction.  `fOne` is a rigorous extension of `gOne`. -/
theorem C1_fraction_counterexample :
    volume {p : ℝ × ℝ | p ∈ domTwo.setR ∧ 0 ≤ gOne p} / volume domTwo.setR = 1 ∧
    (1 : ℚ) < (probability_nonnegative machineEps fOne domTwo 1).min := by
  constructor
  · have hset : {p : ℝ × ℝ | p ∈ domTwo.setR ∧ 0 ≤ gOne p} = domTwo.setR := by
      ext p
      simp [gOne]
    rw [hset, volume_setR domTwo domTwo_wf]
    refine ENNReal.div_self ?_ ENNReal.ofReal_ne_top
    rw [Ne, ENNReal.ofReal_eq_zero]
    norm_num [exactArea, domTwo]
  · have hneg : (fOne domTwo).can_be_negative = false := by
      norm_num [fOne, Interval.can_be_negative]
    simp only [probability_nonnegative, lower_bound_of, upper_bound_of, finalState,
      runState, initState, step, popMin, hneg, Bool.false_and, if_false,
      Bool.false_eq_true, List.map_nil, List.map_cons, List.nil_append,
      List.foldl_nil, List.foldl_cons, sumIntervals, Interval.singleton]
    norm_num [area_eval, add_eval_nonneg, Interval.wrap, Box2D.WF, Interval.WF,
      exactArea, domTwo, lt_min_iff, machineEps]

/-- Claim C1, witness: the amended enclosure theorem applied to the constant
zero function on the unit box with budget zero. -/
theorem C1_area_enclosure_witness :
    unitBox.WF ∧ IsExtension gZero fZero ∧
    (ENNReal.ofReal (((probability_nonnegative machineEps fZero unitBox 0).min : ℚ) : ℝ)
      ≤ volume {p : ℝ × ℝ | p ∈ unitBox.setR ∧ 0 ≤ gZero p} ∧
    volume {p : ℝ × ℝ | p ∈ unitBox.setR ∧ 0 ≤ gZero p}
      ≤ ENNReal.ofReal (((probability_nonnegative machineEps fZero unitBox 0).max : ℚ) : ℝ)) :=
  ⟨unitBox_wf, gZero_ext_fZero,
    C1_area_enclosure gZero fZero unitBox 0 unitBox_wf gZero_ext_fZero⟩

/-- Claim C2: interval addition, subtraction and multiplication are sound:
for well-formed intervals and members `a`, `b`, the sum, difference and
product of the members lie in the corresponding computed intervals (whose
endpoints are inflated by machine epsilon). -/
theorem C2_arith_containment (A B : Interval) (a b : ℚ) (hA : A.WF) (hB : B.WF)
    (ha : A.contains a) (hb : B.contains b) :
    (A.add machineEps B).contains (a + b) ∧
    (A.sub machineEps B).contains (a - b) ∧
    (A.mul machineEps B).contains (a * b) :=
  ⟨add_contains machineEps eps_pos A B a b ha hb,
   sub_contains machineEps eps_pos A B a b ha hb,
   mul_contains machineEps eps_pos A B a b ha hb⟩

/-- Claim C2, witness: containment at the concrete intervals `[0,1]` with
members one half. -/
theorem C2_arith_containment_witness :
    (Interval.mk 0 1).WF ∧ (Interval.mk 0 1).contains (1/2) ∧
    (((Interval.mk 0 1).add machineEps (Interval.mk 0 1)).contains (1/2 + 1/2) ∧
     ((Interval.mk 0 1).sub machineEps (Interval.mk 0 1)).contains (1/2 - 1/2) ∧
     ((Interval.mk 0 1).mul machineEps (Interval.mk 0 1)).contains (1/2 * (1/2:ℚ))) := by
  have h1 : (Interval.mk 0 1).WF := by norm_num [Interval.WF]
  have h2 : (Interval.mk 0 1).contains (1/2) := by
    constructor <;> norm_num
  exact ⟨h1, h2, C2_arith_containment (Interval.mk 0 1) (Interval.mk 0 1)
    (1/2) (1/2) h1 h1 h2 h2⟩

/-- Claim C3 (amended): during every run (before the loop and after each
iteration) every point of the domain where the underlying function could be
non-negative lies in some box of the state, the boxes of the state have
pairwise disjoint interiors (adjacent boxes produced by `split` share
boundary edges, so full set-disjointness fails), and every box of the state
is contained in the domain box. -/
theorem C3_invariant_interiors (g : ℝ × ℝ → ℝ) (f : Box2D → Interval) (domain : Box2D)
    (n : Nat) (hd : domain.WF) (hext : IsExtension g f) :
    (∀ p : ℝ × ℝ, p ∈ domain.setR → 0 ≤ g p →
        ∃ b ∈ (finalState machineEps f domain n).boxes, p ∈ b.setR) ∧
    ((finalState machineEps f domain n).boxes.Pairwise
        fun b1 b2 => Disjoint b1.interiorR b2.interiorR) ∧
    (∀ b ∈ (finalState machineEps f domain n).boxes, b.setR ⊆ domain.setR) := by
  have hinv : Inv g domain (finalState machineEps f domain n) :=
    inv_run machineEps g f domain n (initState machineEps domain) hext
      (init_wf machineEps domain hd) (init_inv machineEps g domain)
  exact ⟨hinv.cover, hinv.disj, hinv.inDomain⟩

/-- Claim C3, counterexample to the claim as stated: after one iteration on
the unit box with an everywhere-ambiguous extension, the worklist holds the
four closed quarters; two distinct quarters share the boundary point
`(1/4, 1/2)`, so the boxes of the state are not pairwise disjoint as sets. -/
theorem C3_disjointness_counterexample :
    (finalState machineEps fAmb unitBox 1).boxes
        = [⟨⟨0, 1/2⟩, ⟨0, 1/2⟩⟩, ⟨⟨0, 1/2⟩, ⟨1/2, 1⟩⟩,
           ⟨⟨1/2, 1⟩, ⟨0, 1/2⟩⟩, ⟨⟨1/2, 1⟩, ⟨1/2, 1⟩⟩] ∧
    ((1/4 : ℝ), (1/2 : ℝ)) ∈ Box2D.setR ⟨⟨0, 1/2⟩, ⟨0, 1/2⟩⟩ ∧
    ((1/4 : ℝ), (1/2 : ℝ)) ∈ Box2D.setR ⟨⟨0, 1/2⟩, ⟨1/2, 1⟩⟩ ∧
    (⟨⟨0, 1/2⟩, ⟨0, 1/2⟩⟩ : Box2D) ≠ ⟨⟨0, 1/2⟩, ⟨1/2, 1⟩⟩ := by
  refine ⟨?_, ?_, ?_, ?_⟩
  · have hneg : ∀ c : Box2D, (fAmb c).can_be_negative = true := fun c => by
      norm_num [fAmb, Interval.can_be_negative]
    have hnn : ∀ c : Box2D, (fAmb c).can_be_nonnegative = true := fun c => by
      norm_num [fAmb, Interval.can_be_nonnegative]
    simp only [finalState, runState, initState, step, popMin, hneg, hnn,
      Bool.and_self, if_true, and_self, SearchState.boxes, List.nil_append,
      List.map_append, map_snd_pri, List.map_nil, Box2D.split, Interval.split, unitBox]
    norm_num
  · rw [mem_setR]
    norm_num
  · rw [mem_setR]
    norm_num
  · intro h
    have hx := congrArg (fun b : Box2D => b.y.min) h
    norm_num at hx

/-- Claim C3, witness: the amended invariant applied to the constant zero
function with its ambiguous extension on the unit box after one iteration. -/
theorem C3_invariant_witness :
    unitBox.WF ∧ IsExtension gZero fAmb ∧
    ((∀ p : ℝ × ℝ, p ∈ unitBox.setR → 0 ≤ gZero p →
        ∃ b ∈ (finalState machineEps fAmb unitBox 1).boxes, p ∈ b.setR) ∧
    ((finalState machineEps fAmb unitBox 1).boxes.Pairwise
        fun b1 b2 => Disjoint b1.interiorR b2.interiorR) ∧
    (∀ b ∈ (finalState machineEps fAmb unitBox 1).boxes, b.setR ⊆ unitBox.setR)) :=
  ⟨unitBox_wf, gZero_ext_fAmb,
    C3_invariant_interiors gZero fAmb unitBox 1 unitBox_wf gZero_ext_fAmb⟩

end Absint

namespace Absint

/-- Claim C4 (amended): with the rounding-error inflation disabled (inflation
factor zero, exact arithmetic), increasing the iteration budget never widens
the returned interval: the larger-budget interval is contained in the
smaller-budget one.  With machine-epsilon inflation the upper endpoint can
grow slightly with the budget, as the counterexample shows. -/
theorem C4_monotone_exact (f : Box2D → Interval) (d : Box2D) (n m : Nat)
    (hd : d.WF) (hnm : n ≤ m) :
    (probability_nonnegative 0 f d n).min ≤ (probability_nonnegative 0 f d m).min ∧
    (probability_nonnegative 0 f d m).max ≤ (probability_nonnegative 0 f d n).max := by
  obtain ⟨k, rfl⟩ := Nat.exists_eq_add_of_le hnm
  have hwfn : WFState (finalState 0 f d n) :=
    wfState_run 0 f n (initState 0 d) (init_wf 0 d hd)
  have hfin : finalState 0 f d (n + k) = runState 0 f k (finalState 0 f d n) := by
    rw [finalState, runState_add]
    rfl
  have hmono := Lq_Rq_run 0 f k (finalState 0 f d n) hwfn
  rw [prob_zero_eq f d n hd, prob_zero_eq f d (n + k) hd]
  constructor
  · show Lq (finalState 0 f d n) ≤ Lq (finalState 0 f d (n + k))
    rw [hfin]
    exact hmono.1
  · show Lq (finalState 0 f d (n + k)) + Rq (finalState 0 f d (n + k))
        ≤ Lq (finalState 0 f d n) + Rq (finalState 0 f d n)
    rw [hfin]
    exact hmono.2

/-- Claim C4, counterexample to the claim as stated: at machine epsilon, on
the unit box with an ambiguous extension, the budget-1 interval has a
strictly larger upper endpoint than the budget-0 interval (the extra interval
additions accumulate extra inflation), so the larger-budget interval is not
contained in the smaller-budget one. -/
theorem C4_widening_counterexample :
    (probability_nonnegative machineEps fAmb unitBox 0).max
      < (probability_nonnegative machineEps fAmb unitBox 1).max := by
  have hneg : ∀ c : Box2D, (fAmb c).can_be_negative = true := fun c => by
    norm_num [fAmb, Interval.can_be_negative]
  have hnn : ∀ c : Box2D, (fAmb c).can_be_nonnegative = true := fun c => by
    norm_num [fAmb, Interval.can_be_nonnegative]
  simp only [probability_nonnegative, lower_bound_of, upper_bound_of, finalState,
    runState, initState, step, popMin, hneg, hnn, Bool.and_self, if_true, and_self,
    List.map_nil, List.map_cons, List.nil_append, List.foldl_nil, List.foldl_cons,
    sumIntervals, Interval.singleton]
  norm_num [area_eval, add_eval_nonneg, Interval.wrap, Box2D.WF, Interval.WF,
    exactArea, Box2D.split, Interval.split, unitBox, machineEps]

/-- Claim C4, witness: the amended (exact arithmetic) monotonicity applied to
the ambiguous extension on the unit box with budgets 0 and 1. -/
theorem C4_monotone_exact_witness :
    unitBox.WF ∧ 0 ≤ 1 ∧
    ((probability_nonnegative 0 fAmb unitBox 0).min
        ≤ (probability_nonnegative 0 fAmb unitBox 1).min ∧
     (probability_nonnegative 0 fAmb unitBox 1).max
        ≤ (probability_nonnegative 0 fAmb unitBox 0).max) :=
  ⟨unitBox_wf, by norm_num,
    C4_monotone_exact fAmb unitBox 0 1 unitBox_wf (by norm_num)⟩

/-- Claim C5 (amended): if `f` evaluates to an entirely negative (well-formed)
interval on the domain box itself, then for every budget of at least one
iteration the returned interval is exactly `[0,0]`.  A budget of zero
returns the area enclosure of the whole domain instead, as the
counterexample shows. -/
theorem C5_provably_negative (f : Box2D → Interval) (d : Box2D) (n : Nat)
    (hWF : (f d).WF) (hmax : (f d).max < 0) (hn : 1 ≤ n) :
    probability_nonnegative machineEps f d n = ⟨0, 0⟩ :=
  prob_allneg machineEps f d n hWF hmax hn

/-- Claim C5, counterexample to the claim as stated: `fNeg` is provably
negative everywhere (it extends the constant function minus one), yet with a
budget of zero iterations the returned interval has a nonzero upper endpoint
(the unresolved domain box still contributes its whole area), so the result
is not `[0,0]` for every budget. -/
theorem C5_budget_zero_counterexample :
    (fNeg unitBox).max < 0 ∧ (fNeg unitBox).WF ∧
      (probability_nonnegative machineEps fNeg unitBox 0).max ≠ 0 := by
  refine ⟨by norm_num [fNeg], by norm_num [fNeg, Interval.WF], ?_⟩
  simp only [probability_nonnegative, lower_bound_of, upper_bound_of, finalState,
    runState, initState, sumIntervals, List.map_nil, List.map_cons, List.foldl_nil,
    List.foldl_cons, Interval.singleton]
  norm_num [area_eval, add_eval_nonneg, Interval.wrap, Box2D.WF, Interval.WF,
    exactArea, unitBox, machineEps]

/-- Claim C5, witness: the amended theorem applied to `fNeg` on the unit box
with budget one. -/
theorem C5_provably_negative_witness :
    (fNeg unitBox).WF ∧ (fNeg unitBox).max < 0 ∧ 1 ≤ 1 ∧
      probability_nonnegative machineEps fNeg unitBox 1 = ⟨0, 0⟩ :=
  ⟨by norm_num [fNeg, Interval.WF], by norm_num [fNeg], le_refl 1,
    C5_provably_negative fNeg unitBox 1 (by norm_num [fNeg, Interval.WF])
      (by norm_num [fNeg]) (le_refl 1)⟩

/-- Claim C6: on a single-point (zero-area) domain box the returned interval
is exactly `[0,0]`, for every interval extension and every iteration budget
(including zero). -/
theorem C6_point_domain (f : Box2D → Interval) (a b : ℚ) (n : Nat) :
    probability_nonnegative machineEps f ⟨⟨a, a⟩, ⟨b, b⟩⟩ n = ⟨0, 0⟩ :=
  prob_point_eq machineEps f a b n

/-- Claim C7: `Box2D.split` returns exactly four sub-boxes; their union
reconstructs the parent box exactly; their exact areas sum to the parent's
exact area; and both the interval sum of the children's computed areas and
the parent's computed area interval contain that common exact area (the
computed quantities agree up to the rounding-error inflation). -/
theorem C7_split_properties (b : Box2D) (hb : b.WF) :
    b.split.length = 4 ∧
    listUnion (b.split.map Box2D.setR) = b.setR ∧
    (b.split.map exactArea).sum = exactArea b ∧
    (sumIntervals machineEps (b.split.map (Box2D.area machineEps))).contains (exactArea b) ∧
    (b.area machineEps).contains (exactArea b) := by
  refine ⟨rfl, ?_, split_area_sum b, ?_, area_contains machineEps eps_pos b⟩
  · apply Set.Subset.antisymm
    · refine listUnion_subset ?_
      intro s hs
      obtain ⟨q, hq, rfl⟩ := List.mem_map.mp hs
      exact split_sub b hb q hq
    · intro p hp
      obtain ⟨q, hq, hpq⟩ := split_cover b p hp
      exact mem_listUnion.mpr ⟨q.setR, List.mem_map.mpr ⟨q, hq, rfl⟩, hpq⟩
  · have h := sum_area_contains machineEps eps_pos b.split
    rw [split_area_sum b] at h
    exact h

/-- Claim C7, witness: the split properties at the unit box. -/
theorem C7_split_properties_witness :
    unitBox.WF ∧
    (unitBox.split.length = 4 ∧
    listUnion (unitBox.split.map Box2D.setR) = unitBox.setR ∧
    (unitBox.split.map exactArea).sum = exactArea unitBox ∧
    (sumIntervals machineEps (unitBox.split.map (Box2D.area machineEps))).contains
      (exactArea unitBox) ∧
    (unitBox.area machineEps).contains (exactArea unitBox)) :=
  ⟨unitBox_wf, C7_split_properties unitBox unitBox_wf⟩

/-- Claim C8: the returned value is `wrap(lower_bound, upper_bound)`, where
`lower_bound` is the interval sum of the areas of the resolved non-negative
boxes of the final state and `upper_bound` is `lower_bound` plus the interval
sum of the areas of the boxes still in the worklist; this holds whether the
loop stopped by worklist exhaustion or by budget exhaustion. -/
theorem C8_return_structure (eps : ℚ) (f : Box2D → Interval) (domain : Box2D) (n : Nat) :
    probability_nonnegative eps f domain n
      = Interval.wrap (lower_bound_of eps f domain n) (upper_bound_of eps f domain n) ∧
    lower_bound_of eps f domain n
      = sumIntervals eps ((finalState eps f domain n).nonneg.map (Box2D.area eps)) ∧
    upper_bound_of eps f domain n
      = (lower_bound_of eps f domain n).add eps
          (sumIntervals eps
            ((finalState eps f domain n).worklist.map (fun it => it.2.area eps))) :=
  ⟨rfl, rfl, rfl⟩

end Absint

namespace Absint

theorem make_none_iff (mn mx : ℚ) : Interval.make mn mx = none ↔ mx < mn := by
  rw [Interval.make]
  by_cases h : mn ≤ mx
  · rw [if_pos h]
    simp [not_lt.mpr h]
  · rw [if_neg h]
    simp [not_le.mp h]

theorem wrap_wf (A B : Interval) (hA : A.WF) (hB : B.WF) : (Interval.wrap A B).WF := by
  show Min.min A.min B.min ≤ Max.max A.max B.max
  exact le_trans (min_le_left _ _) (le_trans hA (le_max_left _ _))

theorem add_wf (eps : ℚ) (h0 : 0 ≤ eps) (A B : Interval) (hA : A.WF) (hB : B.WF) :
    (A.add eps B).WF :=
  account_wf eps h0 _ (add_le_add hA hB)

theorem sub_wf (eps : ℚ) (h0 : 0 ≤ eps) (A B : Interval) (hA : A.WF) (hB : B.WF) :
    (A.sub eps B).WF :=
  account_wf eps h0 _ (sub_le_sub hA hB)

theorem mul_wf (eps : ℚ) (h0 : 0 ≤ eps) (A B : Interval) : (A.mul eps B).WF := by
  refine account_wf eps h0 _ ?_
  show Min.min (Min.min (A.min * B.min) (A.min * B.max))
      (Min.min (A.max * B.min) (A.max * B.max)) ≤ _
  exact le_trans (le_trans (min_le_left _ _) (min_le_left _ _))
    (le_trans (le_max_left _ _) (le_max_left _ _))

theorem length_wf (eps : ℚ) (h0 : 0 ≤ eps) (A : Interval) : (A.length eps).WF :=
  account_wf eps h0 _ (le_refl _)

theorem split_fst_wf (A : Interval) (hA : A.WF) : A.split.1.WF := by
  show A.min ≤ (A.min + A.max) / 2
  rw [Interval.WF] at hA
  linarith

theorem split_snd_wf (A : Interval) (hA : A.WF) : A.split.2.WF := by
  show (A.min + A.max) / 2 ≤ A.max
  rw [Interval.WF] at hA
  linarith

/-- Claim C9: constructing an interval fails exactly when `min > max`, and
every interval operation (wrap, singleton, rounding inflation, addition,
subtraction, multiplication, length, split) applied to well-formed inputs
yields only well-formed intervals, so well-formed use never triggers the
construction failure. -/
theorem C9_wf_preservation (mn mx eps : ℚ) (A B : Interval) (h0 : 0 ≤ eps)
    (hA : A.WF) (hB : B.WF) :
    (Interval.make mn mx = none ↔ mx < mn) ∧
    (Interval.wrap A B).WF ∧
    (Interval.singleton mn).WF ∧
    (A.account_for_rounding_errors eps).WF ∧
    (A.add eps B).WF ∧
    (A.sub eps B).WF ∧
    (A.mul eps B).WF ∧
    (A.length eps).WF ∧
    A.split.1.WF ∧
    A.split.2.WF :=
  ⟨make_none_iff mn mx, wrap_wf A B hA hB, le_refl _, account_wf eps h0 A hA,
   add_wf eps h0 A B hA hB, sub_wf eps h0 A B hA hB, mul_wf eps h0 A B,
   length_wf eps h0 A, split_fst_wf A hA, split_snd_wf A hA⟩

/-- Claim C9, witness: the conjunction at concrete well-formed inputs and
machine epsilon. -/
theorem C9_wf_preservation_witness :
    (0 : ℚ) ≤ machineEps ∧ (Interval.mk 0 1).WF ∧ (Interval.mk 2 3).WF ∧
    ((Interval.make 0 1 = none ↔ (1:ℚ) < 0) ∧
    (Interval.wrap (Interval.mk 0 1) (Interval.mk 2 3)).WF ∧
    (Interval.singleton 0).WF ∧
    ((Interval.mk 0 1).account_for_rounding_errors machineEps).WF ∧
    ((Interval.mk 0 1).add machineEps (Interval.mk 2 3)).WF ∧
    ((Interval.mk 0 1).sub machineEps (Interval.mk 2 3)).WF ∧
    ((Interval.mk 0 1).mul machineEps (Interval.mk 2 3)).WF ∧
    ((Interval.mk 0 1).length machineEps).WF ∧
    (Interval.mk 0 1).split.1.WF ∧
    (Interval.mk 0 1).split.2.WF) := by
  have h1 : (Interval.mk (0:ℚ) 1).WF := by norm_num [Interval.WF]
  have h2 : (Interval.mk (2:ℚ) 3).WF := by norm_num [Interval.WF]
  exact ⟨eps_pos, h1, h2,
    C9_wf_preservation 0 1 machineEps (Interval.mk 0 1) (Interval.mk 2 3) eps_pos h1 h2⟩

/-- Claim C10: for every interval extension, every well-formed domain box and
every iteration budget (including zero), the returned interval satisfies
`0 ≤ min ≤ max`: the lower endpoint is never negative. -/
theorem C10_result_nonneg (f : Box2D → Interval) (domain : Box2D) (n : Nat)
    (hd : domain.WF) :
    0 ≤ (probability_nonnegative machineEps f domain n).min ∧
    (probability_nonnegative machineEps f domain n).min
      ≤ (probability_nonnegative machineEps f domain n).max :=
  prob_good machineEps eps_pos eps_le_one f domain n hd

/-- Claim C10, witness: the bound at the ambiguous extension on the unit box
with budget one. -/
theorem C10_result_nonneg_witness :
    unitBox.WF ∧
    (0 ≤ (probability_nonnegative machineEps fAmb unitBox 1).min ∧
    (probability_nonnegative machineEps fAmb unitBox 1).min
      ≤ (probability_nonnegative machineEps fAmb unitBox 1).max) :=
  ⟨unitBox_wf, C10_result_nonneg fAmb unitBox 1 unitBox_wf⟩

end Absint
